import Mathlib

/-!
# Verification of the in-memory historic store `db.MemDB`

Source: `src/db/memDB.go`.

The Go maps of the program are embedded as association lists that hold at
most one pair per key once they are built with `GoMap.assign` from the empty
map.  A `range` loop over a map visits the pairs in the order of the list, so
a statement proved for every store is a statement about every iteration
order.  Slices are lists.  The hex MD5 digest of the standard library is a
parameter `md5hex : String → String` of the ingestion function, the codec of
`encoding/gob` a pair of parameters of the serialization functions, and the
file system a value that these functions read and return.  The error results
are options: `none` is the `nil` error.
-/

/-! # Definitions -/

/-! ## Go maps -/

/-- A Go `map[κ]α`: pairs of key and value. -/
abbrev GoMap (κ α : Type) := List (κ × α)

namespace GoMap

variable {κ α : Type} [DecidableEq κ]

/-- The two-result index expression `v, ok := m[k]`: `none` stands for `ok == false`. -/
def index : GoMap κ α → κ → Option α
  | [], _ => none
  | (k, v) :: m, x => if k = x then some v else index m x

/-- The assignment `m[k] = v`: overwrites the value of a present key, adds an absent one. -/
def assign : GoMap κ α → κ → α → GoMap κ α
  | [], x, a => [(x, a)]
  | (k, v) :: m, x, a => if k = x then (k, a) :: m else (k, v) :: assign m x a

/-- The keys of the map, in iteration order. -/
def keys (m : GoMap κ α) : List κ := m.map Prod.fst

end GoMap

/-! ## External data contracts -/

namespace report

/-- Modelled from the spec: the severity classification of package `vulcan-report`
(type declaration not in the repository), "an ordered enumeration (higher rank = more
severe)", a Go `int` underneath. -/
abbrev SeverityRank := Int

/-- Modelled from the spec: a finding of package `vulcan-report` (type declaration not in
the repository): "a textual summary, a severity classification, a numeric score", the other
fields "passed through opaquely" are gathered in `Body`.  The score is a rational number:
the comparison of two finite `float32` values is exact, NaN is outside the model. -/
structure Vulnerability where
  Summary : String
  Score : ℚ
  Rank : SeverityRank
  Body : String
deriving DecidableEq

/-- The method `Severity()` of a finding: its severity rank.  A library that computes the
rank from the score is the case of the findings whose `Rank` is that function of `Score`. -/
def Vulnerability.Severity (v : Vulnerability) : SeverityRank := v.Rank

/-- Modelled from the spec: a report of package `vulcan-report` (type declaration not in the
repository): "a checktype name, a target identifier, an options string, a completion status,
and an ordered list of Findings". -/
structure Report where
  ChecktypeName : String
  Status : String
  Target : String
  Options : String
  Vulnerabilities : List Vulnerability
deriving DecidableEq

end report

namespace models

set_option linter.dupNamespace false in
/-- Modelled from the spec: the query result element of package `pkg/models` (type
declaration not under `src/`): "{vulnerability: Finding, checktype: string,
affectedTargets: ordered sequence of string}".  The finding is an embedded struct in Go. -/
structure Vulnerability where
  Vulnerability : report.Vulnerability
  Checktype : String
  AffectedTargets : List String
deriving DecidableEq

end models

/-- The promoted field `Score` of the embedded finding. -/
def models.Vulnerability.Score (v : models.Vulnerability) : ℚ := v.Vulnerability.Score

/-- The promoted field `Summary` of the embedded finding. -/
def models.Vulnerability.Summary (v : models.Vulnerability) : String :=
  v.Vulnerability.Summary

/-- The promoted method `Severity()` of the embedded finding. -/
def models.Vulnerability.Severity (v : models.Vulnerability) : report.SeverityRank :=
  v.Vulnerability.Severity

/-! ## The store -/

namespace db

/-- Go's `error` interface: `none` is the `nil` error. -/
abbrev error := String

/-- The struct `entry` (memDB.go, lines 17-21). -/
structure entry where
  ScanID : String
  Date : String
  Report : report.Report
deriving DecidableEq

/-- The state of a `sync.RWMutex`: whether a writer holds it and how many readers do. -/
structure RWMutex where
  writer : Bool := false
  readers : Nat := 0
deriving DecidableEq

/-- The struct `MemDB` (memDB.go, lines 25-41). -/
structure MemDB where
  Historic : GoMap String (List entry)
  mux : RWMutex
deriving DecidableEq

/-- The function `NewMemDB` (memDB.go, lines 44-49). -/
def NewMemDB : MemDB := { Historic := [], mux := {} }

/-- The primary key computed at lines 67-71: the three fields are written to the hash one
after the other, the digest is printed in hexadecimal. -/
def primaryKey (md5hex : String → String) (r : report.Report) : String :=
  md5hex (r.ChecktypeName ++ r.Target ++ r.Options)

/-- The loop of `SaveScanVulnerabilities` (lines 56-74) over the reports, on the map. -/
def saveLoop (md5hex : String → String) (scanID date : String) :
    List report.Report → GoMap String (List entry) → GoMap String (List entry)
  | [], historic => historic
  | r :: reports, historic =>
    if r.Status ≠ "FINISHED" then
      saveLoop md5hex scanID date reports historic
    else
      let e : entry := { ScanID := scanID, Date := date, Report := r }
      let key := primaryKey md5hex r
      saveLoop md5hex scanID date reports
        (GoMap.assign historic key ((GoMap.index historic key).getD [] ++ [e]))

/-- The method `SaveScanVulnerabilities` (lines 52-77).  The lock taken at entry is released
at return: in a sequential run the state of `mux` is the same before and after. -/
def SaveScanVulnerabilities (md5hex : String → String) (m : MemDB) (scanID date : String)
    (reports : List report.Report) : MemDB × Option error :=
  ({ m with Historic := saveLoop md5hex scanID date reports m.Historic }, none)

/-- The accumulator `vmap` of both queries: summary, then severity rank, then the element. -/
abbrev VMap := GoMap String (GoMap report.SeverityRank models.Vulnerability)

/-- The body of the loop over the findings of an entry (lines 106-127 and, with
`entriesArray[n-1]` for `entriesArray[i]`, lines 183-204). -/
def groupVuln (e : entry) (vmap : VMap) (vuln : report.Vulnerability) : VMap :=
  let mm : GoMap report.SeverityRank models.Vulnerability :=
    match GoMap.index vmap vuln.Summary with
    | some mm => mm
    | none => []
  let mv : models.Vulnerability :=
    match GoMap.index mm vuln.Severity with
    | some mv => mv
    | none => { Vulnerability := vuln, Checktype := e.Report.ChecktypeName,
                AffectedTargets := [] }
  let mv : models.Vulnerability :=
    if mv.Score < vuln.Score then { mv with Vulnerability := vuln } else mv
  let mv : models.Vulnerability :=
    { mv with AffectedTargets := mv.AffectedTargets ++ [e.Report.Target] }
  let mm := GoMap.assign mm vuln.Severity mv
  GoMap.assign vmap vuln.Summary mm

/-- The loop over the findings of one entry (lines 103-128, lines 180-205). -/
def groupEntry (e : entry) (vmap : VMap) : VMap :=
  e.Report.Vulnerabilities.foldl (groupVuln e) vmap

/-- The loop over the requested scan identifiers for the entry at index `i` (lines 98-131):
an identifier that differs is skipped, the first that matches has the entry processed and
leaves this loop. -/
def scanIDLoop (e : entry) : List String → VMap → VMap
  | [], vmap => vmap
  | s :: scanID, vmap =>
    if e.ScanID ≠ s then scanIDLoop e scanID vmap
    else groupEntry e vmap

/-- The loop `for i := len(entriesArray) - 1; i >= 0; i--` (lines 97-132): `k` is `i + 1`. -/
def backwardLoop (scanID : List String) (entriesArray : List entry) :
    (k : Nat) → k ≤ entriesArray.length → VMap → VMap
  | 0, _, vmap => vmap
  | i + 1, h, vmap =>
    backwardLoop scanID entriesArray i (Nat.le_of_succ_le h)
      (scanIDLoop (entriesArray.get ⟨i, h⟩) scanID vmap)

/-- The final loops of both queries (lines 136-141, lines 209-214): every element of every
inner map is appended to the result. -/
def flatten (vmap : VMap) : List models.Vulnerability :=
  vmap.foldl (fun vulns m => m.2.foldl (fun vulns v => vulns ++ [v.2]) vulns) []

/-- The method `GetScanVulnerabilities` (lines 81-144). -/
def GetScanVulnerabilities (m : MemDB) (scanID : List String) :
    List models.Vulnerability × Option error :=
  let historic := m.Historic
  let vmap : VMap :=
    historic.foldl
      (fun vmap kv => backwardLoop scanID kv.2 kv.2.length (Nat.le_refl _) vmap) []
  (flatten vmap, none)

/-- The loop over the requested targets (lines 167-175): is the target of the last entry
one of them. -/
def foundLoop (last : entry) : List String → Bool
  | [] => false
  | t :: target => if last.Report.Target = t then true else foundLoop last target

/-- The body of the loop over the store of `GetTargetVulnerabilities` (lines 162-205). -/
def targetStep (target : List String) (vmap : VMap) (entriesArray : List entry) : VMap :=
  let n := entriesArray.length
  if h : n < 1 then vmap
  else
    let last := entriesArray.get ⟨n - 1, Nat.sub_lt (Nat.not_lt.mp h) Nat.one_pos⟩
    let found := foundLoop last target
    if !found then vmap
    else groupEntry last vmap

/-- The method `GetTargetVulnerabilities` (lines 148-217). -/
def GetTargetVulnerabilities (m : MemDB) (target : List String) :
    List models.Vulnerability × Option error :=
  let historic := m.Historic
  let vmap : VMap := historic.foldl (fun vmap kv => targetStep target vmap kv.2) []
  (flatten vmap, none)

end db

/-! ## Definitions that follow the words of the specification -/

namespace db

/-- A finding together with the entry whose report holds it. -/
abbrev Item := entry × report.Vulnerability

/-- The findings of a list of entries, each with its entry, in processing order. -/
def items (es : List entry) : List Item :=
  es.flatMap (fun e => e.Report.Vulnerabilities.map (fun f => (e, f)))

/-- The deduplication key of the specification: summary and severity rank. -/
def dedupKey (f : report.Vulnerability) : String × report.SeverityRank :=
  (f.Summary, f.Severity)

/-- The grouping of the findings of a list of eligible entries by the shared algorithm of
section 4.3, from the empty accumulator. -/
def grouping (es : List entry) : List models.Vulnerability :=
  flatten (es.foldl (fun vmap e => groupEntry e vmap) [])

/-- The eligible entries of the query by target in the words of section 4.5: of every key
only the last entry, and only when its target is one of the requested targets. -/
def targetEligible (m : MemDB) (target : List String) : List entry :=
  m.Historic.filterMap
    (fun kv => kv.2.getLast?.filter (fun e => decide (e.Report.Target ∈ target)))

/-- The entries that the loops of `GetScanVulnerabilities` process: of every key, newest
first, every entry whose scan identifier is one of the requested ones. -/
def scanProcessed (m : MemDB) (scanID : List String) : List entry :=
  m.Historic.flatMap (fun kv => kv.2.reverse.filter (fun e => decide (e.ScanID ∈ scanID)))

/-- The eligible entries of the query by scan in the words of section 4.4 for one requested
identifier: of every key the most recent entry with that identifier, if there is one. -/
def scanEligible (m : MemDB) (a : String) : List entry :=
  m.Historic.filterMap (fun kv => kv.2.reverse.find? (fun e => decide (e.ScanID = a)))

/-- The value `m.Historic[key]` read as a slice: the empty slice for an absent key. -/
def sequenceOf (m : MemDB) (key : String) : List entry :=
  (GoMap.index m.Historic key).getD []

end db

/-! ## The accumulator -/

namespace db

/-- The element of the accumulator at a summary and a severity rank, if there is one. -/
def slot (vmap : VMap) (s : String) (r : report.SeverityRank) : Option models.Vulnerability :=
  match GoMap.index vmap s with
  | some mm => GoMap.index mm r
  | none => none

/-- The element that `groupVuln` writes, from the element found in the slot. -/
def merge (old : Option models.Vulnerability) (e : entry) (vuln : report.Vulnerability) :
    models.Vulnerability :=
  let mv : models.Vulnerability :=
    match old with
    | some mv => mv
    | none => { Vulnerability := vuln, Checktype := e.Report.ChecktypeName,
                AffectedTargets := [] }
  let mv : models.Vulnerability :=
    if mv.Score < vuln.Score then { mv with Vulnerability := vuln } else mv
  { mv with AffectedTargets := mv.AffectedTargets ++ [e.Report.Target] }

/-- No key occurs twice, in the outer map and in every inner map. -/
def WF (vmap : VMap) : Prop :=
  (GoMap.keys vmap).Nodup ∧ ∀ s mm, GoMap.index vmap s = some mm → (GoMap.keys mm).Nodup

/-- The accumulator after a list of findings, each with its entry. -/
def groupItems (L : List Item) (vmap : VMap) : VMap :=
  L.foldl (fun vmap p => groupVuln p.1 vmap p.2) vmap

/-- The slot of one key after a list of findings of that key. -/
def slotFold (o : Option models.Vulnerability) (L : List Item) : Option models.Vulnerability :=
  L.foldl (fun o p => some (merge o p.1 p.2)) o

/-- The findings of a list, each with its entry, that have a given deduplication key. -/
def withKey (K : String × report.SeverityRank) (L : List Item) : List Item :=
  L.filter (fun p => decide (dedupKey p.2 = K))

end db

/-! ## Concrete stores -/

namespace db

/-- A finding "X" of low severity. -/
def findingX : report.Vulnerability := { Summary := "X", Score := 1, Rank := 1, Body := "x" }

/-- A finding "Y" of low severity. -/
def findingY : report.Vulnerability := { Summary := "Y", Score := 2, Rank := 1, Body := "y" }

/-- A finished report of check type "ct" on a target with the given findings. -/
def reportOn (tgt : String) (fs : List report.Vulnerability) : report.Report :=
  { ChecktypeName := "ct", Status := "FINISHED", Target := tgt, Options := "",
    Vulnerabilities := fs }

/-- One key with entries of scan "A" at positions 0 and 2 and of scan "B" at position 1; the
report at position 0 has the finding "X", the report at position 2 the finding "Y". -/
def recencyStore : MemDB :=
  { Historic := [("k", [{ ScanID := "A", Date := "d0", Report := reportOn "T" [findingX] },
                        { ScanID := "B", Date := "d1", Report := reportOn "T" [] },
                        { ScanID := "A", Date := "d2", Report := reportOn "T" [findingY] }])],
    mux := {} }

/-- One key whose earlier entry has target "T1" and whose last entry has target "T2". -/
def latestStore : MemDB :=
  { Historic := [("k", [{ ScanID := "A", Date := "d0", Report := reportOn "T1" [findingX] },
                        { ScanID := "B", Date := "d1", Report := reportOn "T2" [findingY] }])],
    mux := {} }

/-- A finding "X" of score 3.0 and rank 2. -/
def findingLow : report.Vulnerability := { Summary := "X", Score := 3, Rank := 2, Body := "a" }

/-- The score 7.5, as the reduced fraction 15/2. -/
def score75 : ℚ := { num := 15, den := 2, den_nz := by decide, reduced := by decide }

/-- A finding "X" of score 7.5 and rank 2. -/
def findingHigh : report.Vulnerability :=
  { Summary := "X", Score := score75, Rank := 2, Body := "b" }

/-- A finding "X" of score 7.5 and rank 3. -/
def findingOther : report.Vulnerability :=
  { Summary := "X", Score := score75, Rank := 3, Body := "c" }

/-- Two keys, each with one entry on target "T": findings "X" of rank 2 and of rank 3. -/
def severityStore : MemDB :=
  { Historic := [("k1", [{ ScanID := "A", Date := "d", Report := reportOn "T" [findingLow] }]),
                 ("k2", [{ ScanID := "A", Date := "d", Report := reportOn "T" [findingOther] }])],
    mux := {} }

/-- One key, one entry on target "T" with the findings of scores 3.0 and 7.5, in this order. -/
def scoreStore : MemDB :=
  { Historic :=
      [("k", [{ ScanID := "A", Date := "d", Report := reportOn "T" [findingLow, findingHigh] }])],
    mux := {} }

/-- Two keys on target "T": the finding of score 7.5 is processed first, then that of 3.0. -/
def scoreStoreRev : MemDB :=
  { Historic := [("k1", [{ ScanID := "A", Date := "d", Report := reportOn "T" [findingHigh] }]),
                 ("k2", [{ ScanID := "B", Date := "d", Report := reportOn "T" [findingLow] }])],
    mux := {} }

/-- A second finding "X" of low severity, with another body. -/
def findingX2 : report.Vulnerability := { Summary := "X", Score := 2, Rank := 1, Body := "x2" }

/-- One key, one entry on target "T" whose report has two findings "X" of the same rank. -/
def dupStore : MemDB :=
  { Historic :=
      [("k", [{ ScanID := "A", Date := "d", Report := reportOn "T" [findingX, findingX2] }])],
    mux := {} }

/-- The element that the query by target returns on `dupStore`. -/
def dupElem : models.Vulnerability :=
  { Vulnerability := findingX2, Checktype := "ct", AffectedTargets := ["T", "T"] }

end db

/-! ## Ingestion -/

namespace db

/-- The entries that a batch appends to the sequence of a key, in batch order: one for each
report of the batch with status "FINISHED" and that primary key. -/
def batchFor (md5hex : String → String) (scanID date : String) (reports : List report.Report)
    (k : String) : List entry :=
  (reports.filter (fun r => decide (r.Status = "FINISHED" ∧ primaryKey md5hex r = k))).map
    (fun r => { ScanID := scanID, Date := date, Report := r })

/-- A report of check type "ct" on target "T" that is still running, with the finding "Y". -/
def runningReport : report.Report :=
  { ChecktypeName := "ct", Status := "RUNNING", Target := "T", Options := "",
    Vulnerabilities := [findingY] }

/-- A stand-in for the digest in concrete evaluations: the input itself. -/
def plainKey (s : String) : String := s

end db

/-! ## State serialization -/

namespace db

/-- The files of the operating system, by path, with contents of type `β`, and the paths on
which the system refuses to create a file or to write to one. -/
structure FileSystem (β : Type) where
  files : GoMap String β
  createDenied : List String
  writeDenied : List String

/-- The call `os.Create`: the file is created or truncated, or the call fails. -/
def osCreate {β : Type} [Inhabited β] (fs : FileSystem β) (name : String) :
    Except error (FileSystem β) :=
  if name ∈ fs.createDenied then Except.error ("open " ++ name)
  else Except.ok { fs with files := GoMap.assign fs.files name default }

/-- The call `f.Write` on the file just created: the contents are written, or the call
fails. -/
def fileWrite {β : Type} (fs : FileSystem β) (name : String) (b : β) :
    FileSystem β × Option error :=
  if name ∈ fs.writeDenied then (fs, some ("write " ++ name))
  else ({ fs with files := GoMap.assign fs.files name b }, none)

/-- The call `ioutil.ReadFile`: the contents of the file, or an error when there is none. -/
def ReadFile {β : Type} (fs : FileSystem β) (name : String) : Except error β :=
  match GoMap.index fs.files name with
  | some b => Except.ok b
  | none => Except.error ("open " ++ name)

/-- The method `SaveState` (lines 220-239).  `gobEncode` is the encoder of `encoding/gob` on
the one exported field of `MemDB`; the result is the file system after the call and the
error. -/
def SaveState {β : Type} [Inhabited β]
    (gobEncode : GoMap String (List entry) → Except error β)
    (m : MemDB) (stateFile : String) (fs : FileSystem β) : FileSystem β × Option error :=
  match gobEncode m.Historic with
  | Except.error err => (fs, some err)
  | Except.ok buf =>
    match osCreate fs stateFile with
    | Except.error err => (fs, some err)
    | Except.ok fs1 =>
      match fileWrite fs1 stateFile buf with
      | (fs2, some err) => (fs2, some err)
      | (fs2, none) => (fs2, none)

/-- The function `LoadState` (lines 242-254).  `gobDecode` is the decoder of `encoding/gob`
into a `MemDB` whose only set field is the new lock: it gives the value of `Historic` after
the call and the error.  The first result is the pointer returned: `none` is `nil`. -/
def LoadState {β : Type} (gobDecode : β → GoMap String (List entry) × Option error)
    (stateFile : String) (fs : FileSystem β) : Option MemDB × Option error :=
  match ReadFile fs stateFile with
  | Except.error err => (none, some err)
  | Except.ok b =>
    let m : MemDB := { Historic := [], mux := {} }
    let r := gobDecode b
    let m : MemDB := { m with Historic := r.1 }
    (some m, r.2)

/-- The round trip of the codec: what is decoded from the encoding of a mapping has the same
keys and, for every key, the same sequence. -/
def GobRoundTrip {β : Type} (gobEncode : GoMap String (List entry) → Except error β)
    (gobDecode : β → GoMap String (List entry) × Option error) : Prop :=
  ∀ h b, gobEncode h = Except.ok b →
    ∃ h', gobDecode b = (h', none) ∧ ∀ k, GoMap.index h' k = GoMap.index h k

/-- A codec for concrete evaluations: the contents of a file are the mapping itself. -/
def plainEncode (h : GoMap String (List entry)) : Except error (GoMap String (List entry)) :=
  Except.ok h

/-- The decoder of the codec for concrete evaluations. -/
def plainDecode (b : GoMap String (List entry)) : GoMap String (List entry) × Option error :=
  (b, none)

/-- A file system with no file, on which nothing is refused. -/
def emptyFS : FileSystem (GoMap String (List entry)) :=
  { files := [], createDenied := [], writeDenied := [] }

/-- The store `recencyStore` with its lock held by a writer. -/
def lockedStore : MemDB := { recencyStore with mux := { writer := true, readers := 0 } }

end db

/-! ## Inputs of the serialization failures -/

namespace db

/-- A decoder for concrete evaluations on file contents that are either the encoding of a
mapping (`some`) or no gob stream at all (`none`), as an empty or a truncated file is: on the
latter the decoder sets nothing and reports an error. -/
def checkedDecode (b : Option (GoMap String (List entry))) :
    GoMap String (List entry) × Option error :=
  match b with
  | some h => (h, none)
  | none => ([], some "unexpected EOF")

/-- A file system whose file "state.gob" holds no gob stream. -/
def corruptFS : FileSystem (Option (GoMap String (List entry))) :=
  { files := [("state.gob", none)], createDenied := [], writeDenied := [] }

end db

/-! ## Inputs of the query by scan with several identifiers -/

namespace db

/-- A finding "Z" of low severity. -/
def findingZ : report.Vulnerability := { Summary := "Z", Score := 3, Rank := 1, Body := "z" }

/-- One key with entries of scan "A" (finding "X"), scan "B" (finding "Z") and scan "A" again
(finding "Y"), oldest first. -/
def policyStore : MemDB :=
  { Historic := [("k", [{ ScanID := "A", Date := "d0", Report := reportOn "T" [findingX] },
                        { ScanID := "B", Date := "d1", Report := reportOn "T" [findingZ] },
                        { ScanID := "A", Date := "d2", Report := reportOn "T" [findingY] }])],
    mux := {} }

/-- The single first-match policy of section 4.4 for a list of requested identifiers: of
every key the first entry, newest first, whose identifier is one of the requested ones. -/
def firstMatch (m : MemDB) (scanID : List String) : List entry :=
  m.Historic.filterMap (fun kv => kv.2.reverse.find? (fun e => decide (e.ScanID ∈ scanID)))

/-- Two keys: on the first the store has no entry of scan "A", on the second one entry of
scan "A" with the finding "X". -/
def twoKeyStore : MemDB :=
  { Historic := [("k1", [{ ScanID := "B", Date := "d0", Report := reportOn "T1" [findingY] }]),
                 ("k2", [{ ScanID := "A", Date := "d1", Report := reportOn "T2" [findingX] }])],
    mux := {} }

end db

/-! ## Inputs of the check type of an element -/

namespace db

/-- A finished report of the given check type on target "T" with the given findings. -/
def reportOf (ct : String) (fs : List report.Vulnerability) : report.Report :=
  { ChecktypeName := ct, Status := "FINISHED", Target := "T", Options := "",
    Vulnerabilities := fs }

/-- Two keys on target "T": the report of check type "ct1" has the finding "X" of score 1, the
report of check type "ct2" a finding "X" of the same rank and of score 2. -/
def checktypeStore : MemDB :=
  { Historic := [("k1", [{ ScanID := "A", Date := "d", Report := reportOf "ct1" [findingX] }]),
                 ("k2", [{ ScanID := "A", Date := "d", Report := reportOf "ct2" [findingX2] }])],
    mux := {} }

end db

/-! ## Inputs of the primary key and replayed stores -/

namespace db

/-- A finished report of check type "ab" on target "c", without options. -/
def reportAbC : report.Report :=
  { ChecktypeName := "ab", Status := "FINISHED", Target := "c", Options := "",
    Vulnerabilities := [] }

/-- A finished report of check type "a" on target "bc", without options. -/
def reportABc : report.Report :=
  { ChecktypeName := "a", Status := "FINISHED", Target := "bc", Options := "",
    Vulnerabilities := [] }

/-- The store after a list of calls of `SaveScanVulnerabilities`, each with its scan
identifier, date and batch, from the store of `NewMemDB`. -/
def replay (md5hex : String → String) (calls : List (String × String × List report.Report)) :
    MemDB :=
  calls.foldl (fun m c => (SaveScanVulnerabilities md5hex m c.1 c.2.1 c.2.2).1) NewMemDB

end db

/-! # Lemmas -/

/-! ## Lemmas on Go maps -/

namespace GoMap

variable {κ α : Type} [DecidableEq κ]

theorem index_assign_self (m : GoMap κ α) (k : κ) (a : α) :
    index (assign m k a) k = some a := by
  induction m with
  | nil => simp [assign, index]
  | cons p m ih =>
    obtain ⟨k', v⟩ := p
    by_cases h : k' = k
    · simp [assign, index, h]
    · simp [assign, index, h, ih]

theorem index_assign_ne (m : GoMap κ α) {k x : κ} (a : α) (h : k ≠ x) :
    index (assign m k a) x = index m x := by
  induction m with
  | nil => simp [assign, index, h]
  | cons p m ih =>
    obtain ⟨k', v⟩ := p
    by_cases h1 : k' = k
    · subst h1
      simp [assign, index, h]
    · by_cases h2 : k' = x
      · subst h2
        simp [assign, index, h1]
      · simp [assign, index, h1, h2, ih]

theorem index_eq_none_iff (m : GoMap κ α) (k : κ) : index m k = none ↔ k ∉ keys m := by
  induction m with
  | nil => simp [index, keys]
  | cons p m ih =>
    obtain ⟨k', v⟩ := p
    by_cases h : k' = k
    · simp [index, keys, h]
    · have h' : ¬ k = k' := fun e => h e.symm
      simpa [index, keys, h, h'] using ih

theorem mem_keys_assign (m : GoMap κ α) (k x : κ) (a : α) :
    x ∈ keys (assign m k a) ↔ x = k ∨ x ∈ keys m := by
  induction m with
  | nil => simp [assign, keys]
  | cons p m ih =>
    obtain ⟨k', v⟩ := p
    by_cases h : k' = k
    · subst h
      simp [assign, keys]
    · simp only [keys] at ih
      simp [assign, keys, h, ih]
      tauto

theorem nodup_keys_assign (m : GoMap κ α) (k : κ) (a : α) (h : (keys m).Nodup) :
    (keys (assign m k a)).Nodup := by
  induction m with
  | nil => simp [assign, keys]
  | cons p m ih =>
    obtain ⟨k', v⟩ := p
    have h' : k' ∉ keys m ∧ (keys m).Nodup := by simpa [keys] using h
    by_cases hk : k' = k
    · subst hk
      simpa [assign, keys] using h
    · have hm : k' ∉ keys (assign m k a) := by
        rw [mem_keys_assign]
        rintro (e | e)
        · exact hk e
        · exact h'.1 e
      have := ih h'.2
      simp only [keys] at this hm
      simp [assign, keys, hk, this, hm]

theorem mem_iff_index (m : GoMap κ α) (h : (keys m).Nodup) (k : κ) (v : α) :
    (k, v) ∈ m ↔ index m k = some v := by
  induction m with
  | nil => simp [index]
  | cons p m ih =>
    obtain ⟨k', v'⟩ := p
    have h' : k' ∉ keys m ∧ (keys m).Nodup := by simpa [keys] using h
    by_cases hk : k' = k
    · subst hk
      have : ∀ w, (k', w) ∉ m := fun w hw => h'.1 (List.mem_map_of_mem Prod.fst hw)
      simp [index, this, eq_comm]
    · have hk' : ¬ k = k' := fun e => hk e.symm
      simp [index, hk, hk', ih h'.2]

end GoMap

/-! ## The accumulator -/

namespace db

theorem groupVuln_eq (e : entry) (vmap : VMap) (vuln : report.Vulnerability) :
    groupVuln e vmap vuln =
      GoMap.assign vmap vuln.Summary
        (GoMap.assign ((GoMap.index vmap vuln.Summary).getD []) vuln.Severity
          (merge (slot vmap vuln.Summary vuln.Severity) e vuln)) := by
  unfold groupVuln merge slot
  cases h : GoMap.index vmap vuln.Summary with
  | none => simp [GoMap.index]
  | some mm => simp

theorem slot_groupVuln (e : entry) (vmap : VMap) (vuln : report.Vulnerability)
    (s : String) (r : report.SeverityRank) :
    slot (groupVuln e vmap vuln) s r =
      if dedupKey vuln = (s, r) then some (merge (slot vmap vuln.Summary vuln.Severity) e vuln)
      else slot vmap s r := by
  rw [groupVuln_eq]
  by_cases hs : vuln.Summary = s
  · subst hs
    by_cases hr : vuln.Severity = r
    · subst hr
      simp [slot, dedupKey, GoMap.index_assign_self]
    · have hk : ¬ dedupKey vuln = (vuln.Summary, r) := by simp [dedupKey, hr]
      rw [if_neg hk]
      simp only [slot, GoMap.index_assign_self]
      rw [GoMap.index_assign_ne _ _ hr]
      cases h : GoMap.index vmap vuln.Summary <;> simp [GoMap.index]
  · have hk : ¬ dedupKey vuln = (s, r) := by simp [dedupKey, hs]
    rw [if_neg hk]
    simp only [slot]
    rw [GoMap.index_assign_ne _ _ hs]

theorem WF_nil : WF [] := by
  simp [WF, GoMap.keys, GoMap.index]

theorem WF_groupVuln (e : entry) (vmap : VMap) (vuln : report.Vulnerability) (h : WF vmap) :
    WF (groupVuln e vmap vuln) := by
  rw [groupVuln_eq]
  refine ⟨GoMap.nodup_keys_assign _ _ _ h.1, ?_⟩
  intro s mm hmm
  by_cases hs : vuln.Summary = s
  · subst hs
    rw [GoMap.index_assign_self] at hmm
    cases hmm
    apply GoMap.nodup_keys_assign
    cases h' : GoMap.index vmap vuln.Summary with
    | none => simp [GoMap.keys]
    | some m0 => simpa using h.2 _ _ h'
  · rw [GoMap.index_assign_ne _ _ hs] at hmm
    exact h.2 _ _ hmm

theorem WF_groupItems (L : List Item) (vmap : VMap) (h : WF vmap) : WF (groupItems L vmap) := by
  induction L generalizing vmap with
  | nil => exact h
  | cons p L ih => exact ih _ (WF_groupVuln _ _ _ h)

theorem slot_groupItems (L : List Item) (vmap : VMap) (s : String) (r : report.SeverityRank) :
    slot (groupItems L vmap) s r = slotFold (slot vmap s r) (withKey (s, r) L) := by
  induction L generalizing vmap with
  | nil => rfl
  | cons p L ih =>
    have h1 : groupItems (p :: L) vmap = groupItems L (groupVuln p.1 vmap p.2) := rfl
    rw [h1, ih, slot_groupVuln]
    by_cases hk : dedupKey p.2 = (s, r)
    · have hs : p.2.Summary = s := by simpa [dedupKey] using congrArg Prod.fst hk
      have hr : p.2.Severity = r := by simpa [dedupKey] using congrArg Prod.snd hk
      simp [withKey, hk, slotFold, hs, hr]
    · simp [withKey, hk]

theorem foldl_groupEntry (es : List entry) (vmap : VMap) :
    es.foldl (fun vmap e => groupEntry e vmap) vmap = groupItems (items es) vmap := by
  induction es generalizing vmap with
  | nil => rfl
  | cons e es ih =>
    have h1 : items (e :: es) = e.Report.Vulnerabilities.map (fun f => (e, f)) ++ items es := by
      simp [items]
    rw [List.foldl_cons, ih, h1]
    simp only [groupItems, List.foldl_append, List.foldl_map, groupEntry]

theorem foldl_inner (l : GoMap report.SeverityRank models.Vulnerability)
    (acc : List models.Vulnerability) :
    l.foldl (fun vulns v => vulns ++ [v.2]) acc = acc ++ l.map Prod.snd := by
  induction l generalizing acc with
  | nil => simp
  | cons q l ih => simp [ih]

theorem foldl_outer (vmap : VMap) (acc : List models.Vulnerability) :
    vmap.foldl (fun vulns m => m.2.foldl (fun vulns v => vulns ++ [v.2]) vulns) acc =
      acc ++ vmap.flatMap (fun p => p.2.map Prod.snd) := by
  induction vmap generalizing acc with
  | nil => simp
  | cons p vmap ih =>
    rw [List.foldl_cons, ih, foldl_inner]
    simp

theorem flatten_eq (vmap : VMap) : flatten vmap = vmap.flatMap (fun p => p.2.map Prod.snd) := by
  simp [flatten, foldl_outer]

theorem mem_flatten (vmap : VMap) (h : WF vmap) (v : models.Vulnerability) :
    v ∈ flatten vmap ↔ ∃ s r, slot vmap s r = some v := by
  rw [flatten_eq]
  simp only [List.mem_flatMap, List.mem_map]
  constructor
  · rintro ⟨⟨s, mm⟩, hp, ⟨r, w⟩, hq, rfl⟩
    have h1 := (GoMap.mem_iff_index vmap h.1 s mm).1 hp
    have h2 := (GoMap.mem_iff_index mm (h.2 s mm h1) r w).1 hq
    exact ⟨s, r, by simp [slot, h1, h2]⟩
  · rintro ⟨s, r, hs⟩
    unfold slot at hs
    cases h1 : GoMap.index vmap s with
    | none => simp [h1] at hs
    | some mm =>
      simp only [h1] at hs
      exact ⟨(s, mm), (GoMap.mem_iff_index vmap h.1 s mm).2 h1, (r, v),
        (GoMap.mem_iff_index mm (h.2 s mm h1) r v).2 hs, rfl⟩

end db

/-! ## One slot after a list of findings -/

namespace db

theorem merge_some (mv0 : models.Vulnerability) (e : entry) (f : report.Vulnerability) :
    (merge (some mv0) e f).AffectedTargets = mv0.AffectedTargets ++ [e.Report.Target] ∧
    (merge (some mv0) e f).Checktype = mv0.Checktype ∧
    ((merge (some mv0) e f).Vulnerability = mv0.Vulnerability ∨
      (merge (some mv0) e f).Vulnerability = f) ∧
    mv0.Vulnerability.Score ≤ (merge (some mv0) e f).Vulnerability.Score ∧
    f.Score ≤ (merge (some mv0) e f).Vulnerability.Score := by
  unfold merge
  by_cases h : mv0.Score < f.Score
  · have h' : mv0.Vulnerability.Score < f.Score := h
    simp [h, le_of_lt h']
  · have h' : f.Score ≤ mv0.Vulnerability.Score := not_lt.mp h
    simp [h, h']

theorem merge_none (e : entry) (f : report.Vulnerability) :
    merge none e f =
      { Vulnerability := f, Checktype := e.Report.ChecktypeName,
        AffectedTargets := [e.Report.Target] } := by
  simp [merge, models.Vulnerability.Score]

theorem slotFold_some (L : List Item) (mv0 : models.Vulnerability) :
    ∃ v, slotFold (some mv0) L = some v ∧
      v.AffectedTargets = mv0.AffectedTargets ++ L.map (fun p => p.1.Report.Target) ∧
      v.Checktype = mv0.Checktype ∧
      (v.Vulnerability = mv0.Vulnerability ∨ v.Vulnerability ∈ L.map Prod.snd) ∧
      mv0.Vulnerability.Score ≤ v.Vulnerability.Score ∧
      ∀ p ∈ L, p.2.Score ≤ v.Vulnerability.Score := by
  induction L generalizing mv0 with
  | nil => exact ⟨mv0, rfl, by simp, rfl, Or.inl rfl, le_refl _, by simp⟩
  | cons p L ih =>
    obtain ⟨v, hv, ht, hc, hb, hs, hall⟩ := ih (merge (some mv0) p.1 p.2)
    obtain ⟨mt, mc, mb, ms, mf⟩ := merge_some mv0 p.1 p.2
    refine ⟨v, hv, ?_, ?_, ?_, le_trans ms hs, ?_⟩
    · rw [ht, mt]
      simp
    · rw [hc, mc]
    · rcases hb with hb | hb
      · rcases mb with mb | mb
        · exact Or.inl (hb.trans mb)
        · exact Or.inr (by simp [hb, mb])
      · exact Or.inr (by
          simp only [List.map_cons, List.mem_cons]
          exact Or.inr hb)
    · intro q hq
      rcases List.mem_cons.1 hq with rfl | hq
      · exact le_trans mf hs
      · exact hall q hq

/-- What the slot of a key holds after the findings `p :: L` of that key, from empty. -/
theorem slotFold_none_cons (p : Item) (L : List Item) :
    ∃ v, slotFold none (p :: L) = some v ∧
      v.AffectedTargets = (p :: L).map (fun p => p.1.Report.Target) ∧
      v.Checktype = p.1.Report.ChecktypeName ∧
      v.Vulnerability ∈ (p :: L).map Prod.snd ∧
      ∀ q ∈ p :: L, q.2.Score ≤ v.Vulnerability.Score := by
  obtain ⟨v, hv, ht, hc, hb, hs, hall⟩ := slotFold_some L (merge none p.1 p.2)
  rw [merge_none] at ht hc hb hs
  refine ⟨v, hv, by simpa using ht, hc, ?_, ?_⟩
  · rcases hb with hb | hb
    · simp [hb]
    · simp only [List.map_cons, List.mem_cons]
      exact Or.inr hb
  · intro q hq
    rcases List.mem_cons.1 hq with rfl | hq
    · exact hs
    · exact hall q hq

theorem slotFold_none_spec (L : List Item) (v : models.Vulnerability)
    (h : slotFold none L = some v) :
    L ≠ [] ∧
      v.AffectedTargets = L.map (fun p => p.1.Report.Target) ∧
      (∀ p, L.head? = some p → v.Checktype = p.1.Report.ChecktypeName) ∧
      v.Vulnerability ∈ L.map Prod.snd ∧
      ∀ q ∈ L, q.2.Score ≤ v.Vulnerability.Score := by
  cases L with
  | nil => simp [slotFold] at h
  | cons p L =>
    obtain ⟨w, hw, ht, hc, hb, hall⟩ := slotFold_none_cons p L
    rw [h] at hw
    cases hw
    refine ⟨by simp, ht, ?_, hb, hall⟩
    intro q hq
    simp only [List.head?_cons, Option.some.injEq] at hq
    subst hq
    exact hc

theorem slotFold_none_isSome (L : List Item) (h : L ≠ []) : ∃ v, slotFold none L = some v := by
  cases L with
  | nil => exact absurd rfl h
  | cons p L =>
    obtain ⟨w, hw, _⟩ := slotFold_none_cons p L
    exact ⟨w, hw⟩

theorem mem_withKey (K : String × report.SeverityRank) (L : List Item) (p : Item) :
    p ∈ withKey K L ↔ p ∈ L ∧ dedupKey p.2 = K := by
  simp [withKey]

theorem grouping_eq (es : List entry) : grouping es = flatten (groupItems (items es) []) := by
  simp [grouping, foldl_groupEntry]

theorem slot_nil (s : String) (r : report.SeverityRank) : slot [] s r = none := by
  simp [slot, GoMap.index]

/-- An element of the grouping is what the slot of its own key holds after the findings of
that key. -/
theorem mem_grouping (es : List entry) (v : models.Vulnerability) :
    v ∈ grouping es ↔ slotFold none (withKey (dedupKey v.Vulnerability) (items es)) = some v := by
  rw [grouping_eq, mem_flatten _ (WF_groupItems _ _ WF_nil)]
  constructor
  · rintro ⟨s, r, h⟩
    rw [slot_groupItems, slot_nil] at h
    have hb := (slotFold_none_spec _ _ h).2.2.2.1
    obtain ⟨p, hp, hpv⟩ := List.mem_map.1 hb
    have hk := ((mem_withKey _ _ _).1 hp).2
    rw [hpv] at hk
    rw [hk]
    exact h
  · intro h
    refine ⟨v.Vulnerability.Summary, v.Vulnerability.Severity, ?_⟩
    rw [slot_groupItems, slot_nil]
    exact h

end db

/-! ## The keys of the result and the entries that the queries process -/

namespace db

theorem nodup_pairs {κ₁ κ₂ α : Type} (m : GoMap κ₁ (GoMap κ₂ α)) (h1 : (GoMap.keys m).Nodup)
    (h2 : ∀ p ∈ m, (GoMap.keys p.2).Nodup) :
    (m.flatMap (fun p => p.2.map (fun q => (p.1, q.1)))).Nodup := by
  rw [List.nodup_flatMap]
  constructor
  · intro p hp
    have h3 : p.2.map (fun q => (p.1, q.1)) = (GoMap.keys p.2).map (Prod.mk p.1) := by
      simp [GoMap.keys]
    rw [h3]
    exact (h2 p hp).map (fun a b hab => (Prod.mk.inj hab).2)
  · have h3 : List.Pairwise (fun a b : κ₁ × GoMap κ₂ α => a.1 ≠ b.1) m := by
      simpa [GoMap.keys, List.Nodup, List.pairwise_map] using h1
    refine h3.imp ?_
    intro a b hab x hxa hxb
    obtain ⟨q, _, rfl⟩ := List.mem_map.1 hxa
    obtain ⟨q', _, hq'⟩ := List.mem_map.1 hxb
    exact hab (congrArg Prod.fst hq').symm

theorem filter_length_eq_one {α β : Type} [DecidableEq β] (l : List α) (f : α → β)
    (h : (l.map f).Nodup) (a : α) (ha : a ∈ l) :
    (l.filter (fun x => decide (f x = f a))).length = 1 := by
  induction l with
  | nil => simp at ha
  | cons x l ih =>
    have h' : f x ∉ l.map f ∧ (l.map f).Nodup := by simpa using h
    rcases List.mem_cons.1 ha with rfl | hal
    · have hnone : l.filter (fun x => decide (f x = f a)) = [] := by
        rw [List.filter_eq_nil_iff]
        intro y hy hfy
        exact h'.1 (List.mem_map.2 ⟨y, hy, by simpa using hfy⟩)
      simp [List.filter_cons, hnone]
    · have hne : ¬ f x = f a := fun e => h'.1 (List.mem_map.2 ⟨a, hal, e.symm⟩)
      simp only [List.filter_cons, hne, decide_False, Bool.false_eq_true, if_false]
      exact ih h'.2 hal

/-- No two elements of a grouping have the same summary and severity rank. -/
theorem grouping_keys_nodup (es : List entry) :
    ((grouping es).map (fun v => dedupKey v.Vulnerability)).Nodup := by
  have hwf : WF (groupItems (items es) []) := WF_groupItems _ _ WF_nil
  have h0 : (grouping es).map (fun v => dedupKey v.Vulnerability) =
      (groupItems (items es) []).flatMap (fun p => p.2.map (fun q => (p.1, q.1))) := by
    rw [grouping_eq, flatten_eq, List.map_flatMap]
    apply List.flatMap_congr
    rintro ⟨s, mm⟩ hp
    rw [List.map_map]
    apply List.map_congr_left
    rintro ⟨r, w⟩ hq
    have h1 := (GoMap.mem_iff_index _ hwf.1 s mm).1 hp
    have h2 := (GoMap.mem_iff_index mm (hwf.2 s mm h1) r w).1 hq
    have h3 : slot (groupItems (items es) []) s r = some w := by simp [slot, h1, h2]
    rw [slot_groupItems, slot_nil] at h3
    obtain ⟨p, hp', hpv⟩ := List.mem_map.1 (slotFold_none_spec _ _ h3).2.2.2.1
    have hk := ((mem_withKey _ _ _).1 hp').2
    rw [hpv] at hk
    simpa using hk
  rw [h0]
  refine nodup_pairs _ hwf.1 ?_
  rintro ⟨s, mm⟩ hp
  exact hwf.2 s mm ((GoMap.mem_iff_index _ hwf.1 s mm).1 hp)

/-- The keys of a grouping are the keys of the findings of its entries. -/
theorem mem_grouping_keys (es : List entry) (K : String × report.SeverityRank) :
    K ∈ (grouping es).map (fun v => dedupKey v.Vulnerability) ↔
      ∃ p ∈ items es, dedupKey p.2 = K := by
  constructor
  · intro h
    obtain ⟨v, hv, rfl⟩ := List.mem_map.1 h
    have h1 := (mem_grouping es v).1 hv
    obtain ⟨p, hp, hpv⟩ := List.mem_map.1 (slotFold_none_spec _ _ h1).2.2.2.1
    exact ⟨p, ((mem_withKey _ _ _).1 hp).1, ((mem_withKey _ _ _).1 hp).2⟩
  · rintro ⟨p, hp, hk⟩
    have hne : withKey K (items es) ≠ [] :=
      List.ne_nil_of_mem ((mem_withKey K _ p).2 ⟨hp, hk⟩)
    obtain ⟨v, hv⟩ := slotFold_none_isSome _ hne
    obtain ⟨q, hq, hqv⟩ := List.mem_map.1 (slotFold_none_spec _ _ hv).2.2.2.1
    have hkv : dedupKey v.Vulnerability = K := by
      rw [← hqv]
      exact ((mem_withKey _ _ _).1 hq).2
    refine List.mem_map.2 ⟨v, ?_, hkv⟩
    rw [mem_grouping, hkv]
    exact hv

theorem mem_items (es : List entry) (p : Item) :
    p ∈ items es ↔ p.1 ∈ es ∧ p.2 ∈ p.1.Report.Vulnerabilities := by
  obtain ⟨e, f⟩ := p
  simp only [items, List.mem_flatMap, List.mem_map, Prod.mk.injEq]
  constructor
  · rintro ⟨e', he', f', hf', rfl, rfl⟩
    exact ⟨he', hf'⟩
  · rintro ⟨he, hf⟩
    exact ⟨e, he, f, hf, rfl, rfl⟩

theorem foundLoop_eq (last : entry) (target : List String) :
    foundLoop last target = decide (last.Report.Target ∈ target) := by
  induction target with
  | nil => simp [foundLoop]
  | cons t target ih =>
    by_cases h : last.Report.Target = t
    · simp [foundLoop, h]
    · simp [foundLoop, h, ih]

theorem targetStep_eq (target : List String) (vmap : VMap) (entriesArray : List entry) :
    targetStep target vmap entriesArray =
      match entriesArray.getLast?.filter (fun e => decide (e.Report.Target ∈ target)) with
      | some e => groupEntry e vmap
      | none => vmap := by
  unfold targetStep
  by_cases h : entriesArray.length < 1
  · have h0 : entriesArray = [] := List.length_eq_zero.1 (by omega)
    subst h0
    simp
  · have hlt : entriesArray.length - 1 < entriesArray.length := by omega
    have hl : entriesArray.getLast? =
        some (entriesArray.get ⟨entriesArray.length - 1, hlt⟩) := by
      rw [List.getLast?_eq_getElem?, List.getElem?_eq_getElem hlt]
      rfl
    simp only [h, dite_false, hl, foundLoop_eq, Option.filter]
    generalize entriesArray.get ⟨entriesArray.length - 1, hlt⟩ = last
    by_cases ht : last.Report.Target ∈ target
    · simp [ht]
    · simp [ht]

/-- The query by target returns the grouping of the eligible entries of section 4.5. -/
theorem GetTargetVulnerabilities_eq (m : MemDB) (target : List String) :
    GetTargetVulnerabilities m target = (grouping (targetEligible m target), none) := by
  have key : ∀ (historic : GoMap String (List entry)) (vmap : VMap),
      historic.foldl (fun vmap kv => targetStep target vmap kv.2) vmap =
        (historic.filterMap
          (fun kv => kv.2.getLast?.filter (fun e => decide (e.Report.Target ∈ target)))).foldl
          (fun vmap e => groupEntry e vmap) vmap := by
    intro historic
    induction historic with
    | nil => intro vmap; rfl
    | cons kv historic ih =>
      intro vmap
      rw [List.foldl_cons, ih, targetStep_eq, List.filterMap_cons]
      cases kv.2.getLast?.filter (fun e => decide (e.Report.Target ∈ target)) <;> rfl
  simp [GetTargetVulnerabilities, grouping, targetEligible, key]

theorem mem_targetEligible (m : MemDB) (target : List String) (e : entry) :
    e ∈ targetEligible m target ↔
      ∃ kv ∈ m.Historic, kv.2.getLast? = some e ∧ e.Report.Target ∈ target := by
  simp only [targetEligible, List.mem_filterMap, Option.filter_eq_some]
  constructor
  · rintro ⟨kv, hkv, h1, h2⟩
    exact ⟨kv, hkv, h1, by simpa using h2⟩
  · rintro ⟨kv, hkv, h1, h2⟩
    exact ⟨kv, hkv, h1, by simpa using h2⟩

theorem scanIDLoop_eq (e : entry) (scanID : List String) (vmap : VMap) :
    scanIDLoop e scanID vmap = if e.ScanID ∈ scanID then groupEntry e vmap else vmap := by
  induction scanID with
  | nil => simp [scanIDLoop]
  | cons s scanID ih =>
    by_cases h : e.ScanID = s
    · simp [scanIDLoop, h]
    · simp [scanIDLoop, h, ih]

theorem backwardLoop_eq (scanID : List String) (entriesArray : List entry) (k : Nat)
    (h : k ≤ entriesArray.length) (vmap : VMap) :
    backwardLoop scanID entriesArray k h vmap =
      (((entriesArray.take k).reverse.filter (fun e => decide (e.ScanID ∈ scanID))).foldl
        (fun vmap e => groupEntry e vmap) vmap) := by
  induction k generalizing vmap with
  | zero => simp [backwardLoop]
  | succ i ih =>
    have hi : i < entriesArray.length := h
    have ht : entriesArray.take (i + 1) = entriesArray.take i ++ [entriesArray.get ⟨i, hi⟩] := by
      rw [List.take_succ, List.getElem?_eq_getElem hi]
      rfl
    rw [backwardLoop, ih, scanIDLoop_eq, ht, List.reverse_append]
    generalize entriesArray.get ⟨i, hi⟩ = e
    by_cases hm : e.ScanID ∈ scanID
    · simp [hm, List.filter_cons]
    · simp [hm, List.filter_cons]

/-- The query by scan returns the grouping of all the entries with a requested identifier. -/
theorem GetScanVulnerabilities_eq (m : MemDB) (scanID : List String) :
    GetScanVulnerabilities m scanID = (grouping (scanProcessed m scanID), none) := by
  have key : ∀ (historic : GoMap String (List entry)) (vmap : VMap),
      historic.foldl
          (fun vmap kv => backwardLoop scanID kv.2 kv.2.length (Nat.le_refl _) vmap) vmap =
        (historic.flatMap
          (fun kv => kv.2.reverse.filter (fun e => decide (e.ScanID ∈ scanID)))).foldl
          (fun vmap e => groupEntry e vmap) vmap := by
    intro historic
    induction historic with
    | nil => intro vmap; rfl
    | cons kv historic ih =>
      intro vmap
      rw [List.foldl_cons, ih, backwardLoop_eq, List.flatMap_cons, List.foldl_append,
        List.take_length]
  simp [GetScanVulnerabilities, grouping, scanProcessed, key]

theorem score75_eq : score75 = 7.5 := by
  rw [score75]
  norm_num [Rat.mk'_eq_divInt, Rat.divInt_eq_div]

/-- What an element of a grouping holds, in terms of the findings of its own key. -/
theorem grouping_elem (es : List entry) (v : models.Vulnerability) (hv : v ∈ grouping es) :
    (∃ e ∈ es, v.Vulnerability ∈ e.Report.Vulnerabilities) ∧
      (∀ e ∈ es, ∀ f ∈ e.Report.Vulnerabilities,
        dedupKey f = dedupKey v.Vulnerability → f.Score ≤ v.Vulnerability.Score) ∧
      v.AffectedTargets =
        (withKey (dedupKey v.Vulnerability) (items es)).map (fun p => p.1.Report.Target) ∧
      (∀ p, (withKey (dedupKey v.Vulnerability) (items es)).head? = some p →
        v.Checktype = p.1.Report.ChecktypeName) := by
  have h := (mem_grouping es v).1 hv
  obtain ⟨_, ht, hc, hb, hall⟩ := slotFold_none_spec _ _ h
  refine ⟨?_, ?_, ht, hc⟩
  · obtain ⟨p, hp, hpv⟩ := List.mem_map.1 hb
    have hp' := (mem_items es p).1 ((mem_withKey _ _ _).1 hp).1
    exact ⟨p.1, hp'.1, hpv ▸ hp'.2⟩
  · intro e he f hf hk
    exact hall (e, f) ((mem_withKey _ _ _).2 ⟨(mem_items es (e, f)).2 ⟨he, hf⟩, hk⟩)

theorem count_map_eq_length_filter {α : Type} (l : List α) (f : α → String) (t : String) :
    (l.map f).count t = (l.filter (fun x => decide (f x = t))).length := by
  induction l with
  | nil => simp
  | cons x l ih =>
    by_cases h : f x = t
    · simp [List.count_cons, List.filter_cons, h, ih]
    · simp [List.count_cons, List.filter_cons, h, ih]

end db

/-! ## Ingestion -/

namespace db

theorem index_saveLoop (md5hex : String → String) (scanID date : String)
    (reports : List report.Report) (historic : GoMap String (List entry)) (k : String) :
    GoMap.index (saveLoop md5hex scanID date reports historic) k =
      if batchFor md5hex scanID date reports k = [] then GoMap.index historic k
      else some ((GoMap.index historic k).getD [] ++ batchFor md5hex scanID date reports k) := by
  induction reports generalizing historic with
  | nil => simp [saveLoop, batchFor]
  | cons r rs ih =>
    by_cases hf : r.Status = "FINISHED"
    · by_cases hk : primaryKey md5hex r = k
      · have hb : batchFor md5hex scanID date (r :: rs) k =
            { ScanID := scanID, Date := date, Report := r } ::
              batchFor md5hex scanID date rs k := by
          simp [batchFor, List.filter_cons, hf, hk]
        rw [hb]
        simp only [saveLoop, hf, ne_eq, not_true_eq_false, if_false, ih, hk,
          GoMap.index_assign_self, Option.getD_some, reduceCtorEq]
        by_cases hn : batchFor md5hex scanID date rs k = []
        · simp [hn]
        · simp [hn]
      · have hb : batchFor md5hex scanID date (r :: rs) k = batchFor md5hex scanID date rs k := by
          simp [batchFor, List.filter_cons, hk]
        rw [hb]
        simp only [saveLoop, hf, ne_eq, not_true_eq_false, if_false, ih,
          GoMap.index_assign_ne _ _ hk]
    · have hb : batchFor md5hex scanID date (r :: rs) k = batchFor md5hex scanID date rs k := by
        simp [batchFor, List.filter_cons, hf]
      rw [hb]
      simp only [saveLoop, hf, ne_eq, not_false_eq_true, if_true, ih]

theorem saveLoop_filter (md5hex : String → String) (scanID date : String)
    (reports : List report.Report) (historic : GoMap String (List entry)) :
    saveLoop md5hex scanID date reports historic =
      saveLoop md5hex scanID date (reports.filter (fun r => decide (r.Status = "FINISHED")))
        historic := by
  induction reports generalizing historic with
  | nil => rfl
  | cons r rs ih =>
    by_cases hf : r.Status = "FINISHED"
    · simp only [List.filter_cons, hf, decide_True, if_true, saveLoop, ne_eq, not_true_eq_false,
        if_false]
      exact ih _
    · simp only [List.filter_cons, hf, decide_False, Bool.false_eq_true, if_false, saveLoop,
        ne_eq, not_false_eq_true, if_true]
      exact ih _

theorem saveLoop_none_finished (md5hex : String → String) (scanID date : String)
    (reports : List report.Report) (historic : GoMap String (List entry))
    (h : ∀ r ∈ reports, r.Status ≠ "FINISHED") :
    saveLoop md5hex scanID date reports historic = historic := by
  induction reports with
  | nil => rfl
  | cons r rs ih =>
    have hr : r.Status ≠ "FINISHED" := h r (List.mem_cons_self _ _)
    simp only [saveLoop, hr, ne_eq, not_false_eq_true, if_true]
    exact ih (fun r' hr' => h r' (List.mem_cons_of_mem _ hr'))

theorem batchFor_single (md5hex : String → String) (scanID date : String) (r : report.Report)
    (h : r.Status = "FINISHED") :
    batchFor md5hex scanID date [r] (primaryKey md5hex r) =
      [{ ScanID := scanID, Date := date, Report := r }] := by
  simp [batchFor, h]

theorem grouping_nil : grouping [] = [] := rfl

end db

/-! ## State serialization -/

namespace db

theorem SaveState_ok {β : Type} [Inhabited β]
    (gobEncode : GoMap String (List entry) → Except error β)
    (m : MemDB) (p : String) (fs : FileSystem β) (h : (SaveState gobEncode m p fs).2 = none) :
    ∃ b, gobEncode m.Historic = Except.ok b ∧
      GoMap.index (SaveState gobEncode m p fs).1.files p = some b := by
  unfold SaveState at h ⊢
  cases he : gobEncode m.Historic with
  | error err => simp [he] at h
  | ok buf =>
    simp only [he] at h ⊢
    unfold osCreate at h ⊢
    by_cases hc : p ∈ fs.createDenied
    · simp [hc] at h
    · simp only [hc, if_false] at h ⊢
      unfold fileWrite at h ⊢
      by_cases hw : p ∈ fs.writeDenied
      · simp [hw] at h
      · simp only [hw, if_false]
        exact ⟨buf, rfl, GoMap.index_assign_self _ _ _⟩

end db

namespace db

theorem sequenceOf_save (md5hex : String → String) (m : MemDB) (scanID date : String)
    (reports : List report.Report) (k : String) :
    sequenceOf (SaveScanVulnerabilities md5hex m scanID date reports).1 k =
      sequenceOf m k ++ batchFor md5hex scanID date reports k := by
  simp only [SaveScanVulnerabilities, sequenceOf, index_saveLoop]
  by_cases hb : batchFor md5hex scanID date reports k = []
  · simp [hb]
  · simp [hb]

end db

/-! ## The entries that the query by scan processes -/

namespace db

theorem mem_scanProcessed (m : MemDB) (scanID : List String) (e : entry) :
    e ∈ scanProcessed m scanID ↔ ∃ kv ∈ m.Historic, e ∈ kv.2 ∧ e.ScanID ∈ scanID := by
  simp [scanProcessed, List.mem_flatMap, List.mem_filter]

/-- The check type of an element of a grouping is that of the entry of the first finding
processed with the key of the element. -/
theorem grouping_checktype (es : List entry) (v : models.Vulnerability) (hv : v ∈ grouping es) :
    ∃ p, (withKey (dedupKey v.Vulnerability) (items es)).head? = some p ∧
      p.1 ∈ es ∧ p.2 ∈ p.1.Report.Vulnerabilities ∧
      dedupKey p.2 = dedupKey v.Vulnerability ∧
      v.Checktype = p.1.Report.ChecktypeName := by
  have h := (mem_grouping es v).1 hv
  obtain ⟨hne, _, hc, _, _⟩ := slotFold_none_spec _ _ h
  cases hL : withKey (dedupKey v.Vulnerability) (items es) with
  | nil => exact absurd hL hne
  | cons p L =>
    have hp : p ∈ withKey (dedupKey v.Vulnerability) (items es) := by
      rw [hL]
      exact List.mem_cons_self _ _
    have hp1 := (mem_withKey _ _ _).1 hp
    have hp2 := (mem_items es p).1 hp1.1
    refine ⟨p, rfl, hp2.1, hp2.2, hp1.2, ?_⟩
    apply hc
    rw [hL]
    rfl

theorem scanProcessed_remove (m : MemDB) (scanID : List String)
    (pre post : GoMap String (List entry)) (kv : String × List entry)
    (hm : m.Historic = pre ++ kv :: post) (hkv : ∀ e ∈ kv.2, e.ScanID ∉ scanID) :
    scanProcessed m scanID = scanProcessed { m with Historic := pre ++ post } scanID := by
  have h0 : kv.2.reverse.filter (fun e => decide (e.ScanID ∈ scanID)) = [] := by
    rw [List.filter_eq_nil_iff]
    intro e he
    simpa using hkv e (List.mem_reverse.1 he)
  simp only [scanProcessed, hm, List.flatMap_append, List.flatMap_cons, h0, List.nil_append]

end db

/-! ## The two queries on sequences of one entry -/

namespace db

theorem processed_eq_eligible (scanID target : List String) (h : GoMap String (List entry))
    (h1 : ∀ kv ∈ h, kv.2.length = 1)
    (h2 : ∀ kv ∈ h, ∀ e ∈ kv.2, (e.ScanID ∈ scanID ↔ e.Report.Target ∈ target)) :
    h.flatMap (fun kv => kv.2.reverse.filter (fun e => decide (e.ScanID ∈ scanID))) =
      h.filterMap
        (fun kv => kv.2.getLast?.filter (fun e => decide (e.Report.Target ∈ target))) := by
  induction h with
  | nil => rfl
  | cons kv h ih =>
    have ih' := ih (fun kv' hkv => h1 kv' (List.mem_cons_of_mem _ hkv))
      (fun kv' hkv => h2 kv' (List.mem_cons_of_mem _ hkv))
    obtain ⟨e, he⟩ := List.length_eq_one.1 (h1 kv (List.mem_cons_self _ _))
    have hiff := h2 kv (List.mem_cons_self _ _) e (by rw [he]; exact List.mem_cons_self _ _)
    rw [List.flatMap_cons, List.filterMap_cons, ih', he]
    by_cases hs : e.ScanID ∈ scanID
    · have ht : e.Report.Target ∈ target := hiff.1 hs
      simp [List.filter_cons, Option.filter, hs, ht]
    · have ht : e.Report.Target ∉ target := fun ht => hs (hiff.2 ht)
      simp [List.filter_cons, Option.filter, hs, ht]

theorem slot_eq_some_iff (vmap : VMap) (s : String) (r : report.SeverityRank)
    (v : models.Vulnerability) :
    slot vmap s r = some v ↔
      ∃ mm, GoMap.index vmap s = some mm ∧ GoMap.index mm r = some v := by
  unfold slot
  cases h : GoMap.index vmap s with
  | none => simp
  | some mm => simp

end db

/-! ## Stores built by ingestion -/

namespace GoMap

variable {κ α : Type} [DecidableEq κ]

theorem mem_assign (m : GoMap κ α) (k : κ) (a : α) (p : κ × α) (h : p ∈ assign m k a) :
    p = (k, a) ∨ p ∈ m := by
  induction m with
  | nil =>
    simp only [assign, List.mem_singleton] at h
    exact Or.inl h
  | cons q m ih =>
    obtain ⟨k', v⟩ := q
    by_cases hk : k' = k
    · subst hk
      simp only [assign, if_true, List.mem_cons] at h
      rcases h with h | h
      · exact Or.inl h
      · exact Or.inr (List.mem_cons_of_mem _ h)
    · simp only [assign, hk, if_false, List.mem_cons] at h
      rcases h with h | h
      · exact Or.inr (h ▸ List.mem_cons_self _ _)
      · rcases ih h with h' | h'
        · exact Or.inl h'
        · exact Or.inr (List.mem_cons_of_mem _ h')

theorem mem_of_index (m : GoMap κ α) (k : κ) (v : α) (h : index m k = some v) : (k, v) ∈ m := by
  induction m with
  | nil => simp [index] at h
  | cons q m ih =>
    obtain ⟨k', v'⟩ := q
    by_cases hk : k' = k
    · subst hk
      simp only [index, if_true, Option.some.injEq] at h
      subst h
      exact List.mem_cons_self _ _
    · simp only [index, hk, if_false] at h
      exact List.mem_cons_of_mem _ (ih h)

end GoMap

namespace db

/-- The invariant of the stores built by ingestion. -/
theorem saveLoop_invariant (md5hex : String → String) (scanID date : String)
    (reports : List report.Report) (historic : GoMap String (List entry))
    (h : ∀ kv ∈ historic, kv.2 ≠ [] ∧
      ∀ e ∈ kv.2, e.Report.Status = "FINISHED" ∧ kv.1 = primaryKey md5hex e.Report) :
    ∀ kv ∈ saveLoop md5hex scanID date reports historic, kv.2 ≠ [] ∧
      ∀ e ∈ kv.2, e.Report.Status = "FINISHED" ∧ kv.1 = primaryKey md5hex e.Report := by
  induction reports generalizing historic with
  | nil => exact h
  | cons r rs ih =>
    by_cases hf : r.Status = "FINISHED"
    · simp only [saveLoop, hf, ne_eq, not_true_eq_false, if_false]
      apply ih
      intro kv hkv
      rcases GoMap.mem_assign _ _ _ _ hkv with rfl | hold
      · refine ⟨by simp, ?_⟩
        intro e he
        rcases List.mem_append.1 he with he | he
        · cases hidx : GoMap.index historic (primaryKey md5hex r) with
          | none => simp [hidx] at he
          | some old =>
            simp only [hidx, Option.getD_some] at he
            exact (h _ (GoMap.mem_of_index _ _ _ hidx)).2 e he
        · simp only [List.mem_singleton] at he
          subst he
          exact ⟨hf, rfl⟩
      · exact h kv hold
    · simp only [saveLoop, hf, ne_eq, not_false_eq_true, if_true]
      exact ih historic h

theorem saveLoop_nodup_keys (md5hex : String → String) (scanID date : String)
    (reports : List report.Report) (historic : GoMap String (List entry))
    (h : (GoMap.keys historic).Nodup) :
    (GoMap.keys (saveLoop md5hex scanID date reports historic)).Nodup := by
  induction reports generalizing historic with
  | nil => exact h
  | cons r rs ih =>
    by_cases hf : r.Status = "FINISHED"
    · simp only [saveLoop, hf, ne_eq, not_true_eq_false, if_false]
      exact ih _ (GoMap.nodup_keys_assign _ _ _ h)
    · simp only [saveLoop, hf, ne_eq, not_false_eq_true, if_true]
      exact ih historic h

theorem replay_snoc (md5hex : String → String)
    (calls : List (String × String × List report.Report))
    (c : String × String × List report.Report) :
    replay md5hex (calls ++ [c]) =
      (SaveScanVulnerabilities md5hex (replay md5hex calls) c.1 c.2.1 c.2.2).1 := by
  simp [replay, List.foldl_append]

theorem index_save_save (md5hex : String → String) (m : MemDB) (s1 d1 s2 d2 : String)
    (r1 r2 : report.Report) (h1 : r1.Status = "FINISHED") (h2 : r2.Status = "FINISHED")
    (hk : primaryKey md5hex r1 = primaryKey md5hex r2) :
    GoMap.index
        (SaveScanVulnerabilities md5hex (SaveScanVulnerabilities md5hex m s1 d1 [r1]).1
          s2 d2 [r2]).1.Historic (primaryKey md5hex r1) =
      some (sequenceOf m (primaryKey md5hex r1) ++
        [{ ScanID := s1, Date := d1, Report := r1 },
         { ScanID := s2, Date := d2, Report := r2 }]) := by
  simp only [SaveScanVulnerabilities, sequenceOf]
  rw [hk, index_saveLoop, batchFor_single _ _ _ _ h2, index_saveLoop, ← hk,
    batchFor_single _ _ _ _ h1]
  simp

end db

/-! # The statements of the specification -/

/-! ## C1 -/

namespace db

/-- C1 (code defect): on the store of the claim (one key, scan "A" at positions 0 and 2, scan
"B" at position 1) the query for "A" returns the finding "Y" of position 2 and also the
finding "X" of position 0, whereas the aggregation of the most recent entry of scan "A" alone,
which the claim and the comment at line 129 promise, holds "Y" only: the `break` of line 130
leaves the loop over the identifiers, not the loop over the entries. -/
theorem GetScanVulnerabilities_recency_fails :
    GetScanVulnerabilities recencyStore ["A"] =
        ([{ Vulnerability := findingY, Checktype := "ct", AffectedTargets := ["T"] },
          { Vulnerability := findingX, Checktype := "ct", AffectedTargets := ["T"] }], none) ∧
      scanEligible recencyStore "A" =
        [{ ScanID := "A", Date := "d2", Report := reportOn "T" [findingY] }] ∧
      grouping (scanEligible recencyStore "A") =
        [{ Vulnerability := findingY, Checktype := "ct", AffectedTargets := ["T"] }] ∧
      (GetScanVulnerabilities recencyStore ["A"]).1 ≠ grouping (scanEligible recencyStore "A") := by
  decide

end db

/-! ## C2 -/

namespace db

/-- C2: for every store and every list of requested targets the query by target returns,
with a nil error, the grouping of the findings of the eligible entries, where an entry is
eligible iff it is the last entry of the sequence of some key and its target is one of the
requested targets; earlier entries take no part.  On a key whose last entry has target "T2"
and whose earlier entry has target "T1", the query for "T1" returns nothing and the query for
"T2" returns the findings of the last entry. -/
theorem GetTargetVulnerabilities_latest_only (m : MemDB) (target : List String) :
    GetTargetVulnerabilities m target = (grouping (targetEligible m target), none) ∧
      (∀ e, e ∈ targetEligible m target ↔
        ∃ kv ∈ m.Historic, kv.2.getLast? = some e ∧ e.Report.Target ∈ target) ∧
      GetTargetVulnerabilities latestStore ["T1"] = ([], none) ∧
      GetTargetVulnerabilities latestStore ["T2"] =
        ([{ Vulnerability := findingY, Checktype := "ct", AffectedTargets := ["T2"] }], none) := by
  exact ⟨GetTargetVulnerabilities_eq m target, mem_targetEligible m target, by decide,
    by decide⟩

end db

/-! ## C3 -/

namespace db

/-- C3: for every store and target list, no two elements of the result of the query by target
have the same pair of summary and severity rank; a pair is the pair of some element iff it is
the pair of some finding of an eligible entry; and for each finding of an eligible entry the
result has exactly one element with the summary and the severity rank of that finding.  Two
findings "X" of ranks 2 and 3 give two elements. -/
theorem GetTargetVulnerabilities_dedup_key (m : MemDB) (target : List String) :
    (((GetTargetVulnerabilities m target).1).map (fun v => (v.Summary, v.Severity))).Nodup ∧
      (∀ s r, (∃ v ∈ (GetTargetVulnerabilities m target).1, v.Summary = s ∧ v.Severity = r) ↔
        ∃ e ∈ targetEligible m target, ∃ f ∈ e.Report.Vulnerabilities,
          f.Summary = s ∧ f.Severity = r) ∧
      (∀ e ∈ targetEligible m target, ∀ f ∈ e.Report.Vulnerabilities,
        (((GetTargetVulnerabilities m target).1).filter
          (fun v => decide (v.Summary = f.Summary ∧ v.Severity = f.Severity))).length = 1) ∧
      GetTargetVulnerabilities severityStore ["T"] =
        ([{ Vulnerability := findingLow, Checktype := "ct", AffectedTargets := ["T"] },
          { Vulnerability := findingOther, Checktype := "ct", AffectedTargets := ["T"] }],
         none) := by
  rw [GetTargetVulnerabilities_eq]
  have hnd := grouping_keys_nodup (targetEligible m target)
  have hiff : ∀ s r, (∃ v ∈ grouping (targetEligible m target), v.Summary = s ∧ v.Severity = r) ↔
      ∃ e ∈ targetEligible m target, ∃ f ∈ e.Report.Vulnerabilities,
        f.Summary = s ∧ f.Severity = r := by
    intro s r
    have h := mem_grouping_keys (targetEligible m target) (s, r)
    simp only [List.mem_map, dedupKey, Prod.mk.injEq] at h
    rw [show (∃ v ∈ grouping (targetEligible m target), v.Summary = s ∧ v.Severity = r) ↔
        ∃ a ∈ grouping (targetEligible m target),
          a.Vulnerability.Summary = s ∧ a.Vulnerability.Severity = r from Iff.rfl, h]
    constructor
    · rintro ⟨p, hp, hk⟩
      exact ⟨p.1, ((mem_items _ p).1 hp).1, p.2, ((mem_items _ p).1 hp).2, hk⟩
    · rintro ⟨e, he, f, hf, hk⟩
      exact ⟨(e, f), (mem_items _ (e, f)).2 ⟨he, hf⟩, hk⟩
  refine ⟨hnd, hiff, ?_, by decide⟩
  intro e he f hf
  obtain ⟨v, hv, hvs, hvr⟩ := (hiff f.Summary f.Severity).2 ⟨e, he, f, hf, rfl, rfl⟩
  have hc := filter_length_eq_one _ _ hnd v hv
  rw [← hc]
  congr 1
  apply List.filter_congr
  intro w _
  have hk : dedupKey v.Vulnerability = (f.Summary, f.Severity) := by
    simp only [dedupKey, Prod.mk.injEq]
    exact ⟨hvs, hvr⟩
  rw [hk]
  simp [dedupKey, models.Vulnerability.Summary, models.Vulnerability.Severity]

end db

/-! ## C4 -/

namespace db

/-- C4: for every store and target list (hence for every order of the keys and of the
findings), every element of the result of the query by target carries a finding of an
eligible entry, no finding of an eligible entry with the same summary and severity rank has a
higher score, and when one such finding has a score strictly above all the others of that
summary and rank, the element carries exactly that finding.  Findings of scores 3.0 and 7.5
with the same summary and rank give one element with the finding of score 7.5, in either
processing order. -/
theorem GetTargetVulnerabilities_score_max (m : MemDB) (target : List String) :
    (∀ v ∈ (GetTargetVulnerabilities m target).1,
      (∃ e ∈ targetEligible m target, v.Vulnerability ∈ e.Report.Vulnerabilities) ∧
      (∀ e ∈ targetEligible m target, ∀ f ∈ e.Report.Vulnerabilities,
        f.Summary = v.Summary → f.Severity = v.Severity → f.Score ≤ v.Score) ∧
      (∀ e ∈ targetEligible m target, ∀ f ∈ e.Report.Vulnerabilities,
        f.Summary = v.Summary → f.Severity = v.Severity →
        (∀ e' ∈ targetEligible m target, ∀ g ∈ e'.Report.Vulnerabilities,
          g.Summary = f.Summary → g.Severity = f.Severity → g ≠ f → g.Score < f.Score) →
        v.Vulnerability = f)) ∧
      findingLow.Score = 3 ∧ findingHigh.Score = 7.5 ∧
      GetTargetVulnerabilities scoreStore ["T"] =
        ([{ Vulnerability := findingHigh, Checktype := "ct", AffectedTargets := ["T", "T"] }],
         none) ∧
      GetTargetVulnerabilities scoreStoreRev ["T"] =
        ([{ Vulnerability := findingHigh, Checktype := "ct", AffectedTargets := ["T", "T"] }],
         none) := by
  refine ⟨?_, rfl, score75_eq, by decide, by decide⟩
  rw [GetTargetVulnerabilities_eq]
  intro v hv
  obtain ⟨⟨e0, he0, hf0⟩, hmax, _, _⟩ := grouping_elem _ v hv
  have hmax' : ∀ e ∈ targetEligible m target, ∀ f ∈ e.Report.Vulnerabilities,
      f.Summary = v.Summary → f.Severity = v.Severity → f.Score ≤ v.Score := by
    intro e he f hf hs hr
    refine hmax e he f hf ?_
    simp only [dedupKey, Prod.mk.injEq]
    exact ⟨hs, hr⟩
  refine ⟨⟨e0, he0, hf0⟩, hmax', ?_⟩
  intro e he f hf hs hr huniq
  by_contra hne
  have h1 : v.Vulnerability.Score < f.Score :=
    huniq e0 he0 v.Vulnerability hf0 hs.symm hr.symm hne
  have h2 : f.Score ≤ v.Vulnerability.Score := hmax' e he f hf hs hr
  exact absurd h1 (not_lt.mpr h2)

end db

/-! ## C5 -/

namespace db

/-- C5 as stated fails: on a store with a single eligible entry on target "T" whose report has
two findings of the same summary and severity rank, the element of that slot lists "T" twice,
while one eligible entry with target "T" holds a finding of the slot. -/
theorem affected_targets_once_per_entry_fails :
    ¬ (∀ v ∈ (GetTargetVulnerabilities dupStore ["T"]).1, ∀ t : String,
        v.AffectedTargets.count t =
          ((targetEligible dupStore ["T"]).filter
            (fun e => decide (e.Report.Target = t) &&
              e.Report.Vulnerabilities.any
                (fun f => decide (f.Summary = v.Summary ∧ f.Severity = v.Severity)))).length) := by
  intro h
  have h1 := h dupElem (by decide) "T"
  revert h1
  decide

/-- C5 (amended): for every store, target list, element of the result of the query by target
and target `t`, the number of occurrences of `t` in the affected targets of the element is the
number of findings with the summary and severity rank of the element in the reports of the
eligible entries with target `t`: the target is appended once per finding processed. -/
theorem GetTargetVulnerabilities_affected_targets (m : MemDB) (target : List String)
    (v : models.Vulnerability) (hv : v ∈ (GetTargetVulnerabilities m target).1) (t : String) :
    v.AffectedTargets.count t =
      ((items (targetEligible m target)).filter
        (fun p => decide (p.2.Summary = v.Summary ∧ p.2.Severity = v.Severity ∧
          p.1.Report.Target = t))).length := by
  rw [GetTargetVulnerabilities_eq] at hv
  obtain ⟨_, _, ht, _⟩ := grouping_elem _ v hv
  rw [ht, count_map_eq_length_filter, withKey, List.filter_filter]
  congr 1
  apply List.filter_congr
  intro p _
  simp only [dedupKey, Prod.mk.injEq, models.Vulnerability.Summary,
    models.Vulnerability.Severity, Bool.decide_and]
  cases decide (p.1.Report.Target = t) <;>
    cases decide (p.2.Summary = v.Vulnerability.Summary) <;>
    cases decide (p.2.Severity = v.Vulnerability.Severity) <;> rfl

theorem GetTargetVulnerabilities_affected_targets_witness :
    dupElem ∈ (GetTargetVulnerabilities dupStore ["T"]).1 ∧
      dupElem.AffectedTargets.count "T" =
        ((items (targetEligible dupStore ["T"])).filter
          (fun p => decide (p.2.Summary = dupElem.Summary ∧ p.2.Severity = dupElem.Severity ∧
            p.1.Report.Target = "T"))).length :=
  ⟨by decide, GetTargetVulnerabilities_affected_targets dupStore ["T"] dupElem (by decide) "T"⟩

end db

/-! ## C6 -/

namespace db

/-- C6: for every store, scan identifier, date and batch, `SaveScanVulnerabilities` returns
the store that ingesting only the reports of status "FINISHED" of the batch, in the same
order, returns, so both queries answer the same on the two; the sequence of every key grows
by one entry for each report of the batch with status "FINISHED" and that key, and by nothing
else; a batch with no report of status "FINISHED" returns the store unchanged.  A batch of a running report with the finding "Y" and a
finished report with the finding "X" leaves only "X" retrievable. -/
theorem SaveScanVulnerabilities_status_filter (md5hex : String → String) (m : MemDB)
    (scanID date : String) (reports : List report.Report) :
    SaveScanVulnerabilities md5hex m scanID date reports =
        SaveScanVulnerabilities md5hex m scanID date
          (reports.filter (fun r => decide (r.Status = "FINISHED"))) ∧
      (∀ ids, GetScanVulnerabilities (SaveScanVulnerabilities md5hex m scanID date reports).1 ids =
        GetScanVulnerabilities (SaveScanVulnerabilities md5hex m scanID date
          (reports.filter (fun r => decide (r.Status = "FINISHED")))).1 ids) ∧
      (∀ ts, GetTargetVulnerabilities (SaveScanVulnerabilities md5hex m scanID date reports).1 ts =
        GetTargetVulnerabilities (SaveScanVulnerabilities md5hex m scanID date
          (reports.filter (fun r => decide (r.Status = "FINISHED")))).1 ts) ∧
      (∀ k, sequenceOf (SaveScanVulnerabilities md5hex m scanID date reports).1 k =
        sequenceOf m k ++
          (reports.filter (fun r => decide (r.Status = "FINISHED" ∧ primaryKey md5hex r = k))).map
            (fun r => { ScanID := scanID, Date := date, Report := r })) ∧
      ((∀ r ∈ reports, r.Status ≠ "FINISHED") →
        SaveScanVulnerabilities md5hex m scanID date reports = (m, none)) ∧
      (SaveScanVulnerabilities plainKey NewMemDB "A" "d"
          [runningReport, reportOn "T" [findingX]]).1.Historic =
        [("ctT", [{ ScanID := "A", Date := "d", Report := reportOn "T" [findingX] }])] ∧
      GetScanVulnerabilities (SaveScanVulnerabilities plainKey NewMemDB "A" "d"
          [runningReport, reportOn "T" [findingX]]).1 ["A"] =
        ([{ Vulnerability := findingX, Checktype := "ct", AffectedTargets := ["T"] }], none) ∧
      GetTargetVulnerabilities (SaveScanVulnerabilities plainKey NewMemDB "A" "d"
          [runningReport, reportOn "T" [findingX]]).1 ["T"] =
        ([{ Vulnerability := findingX, Checktype := "ct", AffectedTargets := ["T"] }], none) := by
  have h0 : SaveScanVulnerabilities md5hex m scanID date reports =
      SaveScanVulnerabilities md5hex m scanID date
        (reports.filter (fun r => decide (r.Status = "FINISHED"))) := by
    simp only [SaveScanVulnerabilities]
    rw [← saveLoop_filter]
  refine ⟨h0, ?_, ?_, ?_, ?_, by decide, by decide, by decide⟩
  · intro ids
    rw [← h0]
  · intro ts
    rw [← h0]
  · intro k
    exact sequenceOf_save md5hex m scanID date reports k
  · intro h
    simp only [SaveScanVulnerabilities]
    rw [saveLoop_none_finished _ _ _ _ _ h]

theorem SaveScanVulnerabilities_status_filter_witness :
    (∀ r ∈ [runningReport], r.Status ≠ "FINISHED") ∧
      SaveScanVulnerabilities plainKey recencyStore "C" "d" [runningReport] =
        (recencyStore, none) :=
  ⟨by decide,
    (SaveScanVulnerabilities_status_filter plainKey recencyStore "C" "d"
      [runningReport]).2.2.2.2.1 (by decide)⟩

end db

/-! ## C7 -/

namespace db

/-- C7: for any two reports of status "FINISHED" with the same check type name, target and
options, the two have the same primary key, and after ingesting the first under one scan
identifier and then the second under another, the sequence of that key is the previous
sequence (empty for an absent key) followed by the entry of the first and then the entry of
the second. -/
theorem SaveScanVulnerabilities_same_key (md5hex : String → String) (m : MemDB)
    (s1 d1 s2 d2 : String) (r1 r2 : report.Report)
    (h1 : r1.Status = "FINISHED") (h2 : r2.Status = "FINISHED")
    (hc : r1.ChecktypeName = r2.ChecktypeName) (ht : r1.Target = r2.Target)
    (ho : r1.Options = r2.Options) (_hs : s1 ≠ s2) :
    primaryKey md5hex r1 = primaryKey md5hex r2 ∧
      GoMap.index
          (SaveScanVulnerabilities md5hex (SaveScanVulnerabilities md5hex m s1 d1 [r1]).1
            s2 d2 [r2]).1.Historic (primaryKey md5hex r1) =
        some (sequenceOf m (primaryKey md5hex r1) ++
          [{ ScanID := s1, Date := d1, Report := r1 }, { ScanID := s2, Date := d2, Report := r2 }]) := by
  have hk : primaryKey md5hex r1 = primaryKey md5hex r2 := by
    simp [primaryKey, hc, ht, ho]
  refine ⟨hk, ?_⟩
  simp only [SaveScanVulnerabilities, sequenceOf]
  rw [hk, index_saveLoop, batchFor_single _ _ _ _ h2, index_saveLoop, ← hk,
    batchFor_single _ _ _ _ h1]
  simp

theorem SaveScanVulnerabilities_same_key_witness :
    (reportOn "T" [findingX]).Status = "FINISHED" ∧
      (reportOn "T" [findingY]).Status = "FINISHED" ∧
      "A" ≠ "B" ∧
      GoMap.index
          (SaveScanVulnerabilities plainKey
            (SaveScanVulnerabilities plainKey NewMemDB "A" "d1" [reportOn "T" [findingX]]).1
            "B" "d2" [reportOn "T" [findingY]]).1.Historic
          (primaryKey plainKey (reportOn "T" [findingX])) =
        some (sequenceOf NewMemDB (primaryKey plainKey (reportOn "T" [findingX])) ++
          [{ ScanID := "A", Date := "d1", Report := reportOn "T" [findingX] },
           { ScanID := "B", Date := "d2", Report := reportOn "T" [findingY] }]) :=
  ⟨rfl, rfl, by decide,
    (SaveScanVulnerabilities_same_key plainKey NewMemDB "A" "d1" "B" "d2"
      (reportOn "T" [findingX]) (reportOn "T" [findingY]) rfl rfl rfl rfl rfl (by decide)).2⟩

end db

/-! ## C8 -/

namespace db

/-- C8: for every store, every call of `SaveScanVulnerabilities` and every key: a key present
before the call is present after it with its previous sequence as a prefix of the new one;
the sequence of the key after the call is the sequence before it followed by the entries of
the reports of the batch with status "FINISHED" and that key, in batch order; the key is
absent after the call iff it was absent before and the batch has no such report; the call
returns a nil error. -/
theorem SaveScanVulnerabilities_append_only (md5hex : String → String) (m : MemDB)
    (scanID date : String) (reports : List report.Report) (k : String) :
    (∀ seq, GoMap.index m.Historic k = some seq →
      ∃ seq', GoMap.index (SaveScanVulnerabilities md5hex m scanID date reports).1.Historic k =
          some seq' ∧ seq <+: seq') ∧
      sequenceOf (SaveScanVulnerabilities md5hex m scanID date reports).1 k =
        sequenceOf m k ++ batchFor md5hex scanID date reports k ∧
      (GoMap.index (SaveScanVulnerabilities md5hex m scanID date reports).1.Historic k = none ↔
        GoMap.index m.Historic k = none ∧ batchFor md5hex scanID date reports k = []) ∧
      (SaveScanVulnerabilities md5hex m scanID date reports).2 = none := by
  simp only [SaveScanVulnerabilities, sequenceOf, index_saveLoop]
  by_cases hb : batchFor md5hex scanID date reports k = []
  · simp only [hb, if_true, List.append_nil, and_true, true_and]
    intro seq hseq
    exact ⟨seq, hseq, List.prefix_refl _⟩
  · simp only [hb, if_false, Option.some.injEq, Option.getD_some, reduceCtorEq, false_iff,
      not_and, not_false_eq_true, implies_true, and_true]
    intro seq hseq
    exact ⟨_, rfl, by simp [hseq]⟩

theorem SaveScanVulnerabilities_append_only_witness :
    GoMap.index recencyStore.Historic "k" =
        some [{ ScanID := "A", Date := "d0", Report := reportOn "T" [findingX] },
              { ScanID := "B", Date := "d1", Report := reportOn "T" [] },
              { ScanID := "A", Date := "d2", Report := reportOn "T" [findingY] }] ∧
      ∃ seq', GoMap.index (SaveScanVulnerabilities plainKey recencyStore "C" "d3"
            [reportOn "T" [findingX]]).1.Historic "k" = some seq' ∧
          [{ ScanID := "A", Date := "d0", Report := reportOn "T" [findingX] },
           { ScanID := "B", Date := "d1", Report := reportOn "T" [] },
           { ScanID := "A", Date := "d2", Report := reportOn "T" [findingY] }] <+: seq' :=
  ⟨rfl, (SaveScanVulnerabilities_append_only plainKey recencyStore "C" "d3"
      [reportOn "T" [findingX]] "k").1 _ rfl⟩

end db

/-! ## C9 -/

namespace db

/-- C9: for every store and request list, if no stored entry has a requested scan identifier
the query by scan returns an empty list with a nil error, and if the last entry of no key has a
requested target the query by target returns an empty list with a nil error; so it is for the
store of `NewMemDB` and for the empty request list on every store. -/
theorem queries_empty_result (m : MemDB) (scanID target : List String) :
    ((∀ kv ∈ m.Historic, ∀ e ∈ kv.2, e.ScanID ∉ scanID) →
        GetScanVulnerabilities m scanID = ([], none)) ∧
      ((∀ kv ∈ m.Historic, ∀ e, kv.2.getLast? = some e → e.Report.Target ∉ target) →
        GetTargetVulnerabilities m target = ([], none)) ∧
      GetScanVulnerabilities NewMemDB scanID = ([], none) ∧
      GetTargetVulnerabilities NewMemDB target = ([], none) ∧
      GetScanVulnerabilities m [] = ([], none) ∧
      GetTargetVulnerabilities m [] = ([], none) := by
  have hscan : ∀ (m : MemDB) (scanID : List String),
      (∀ kv ∈ m.Historic, ∀ e ∈ kv.2, e.ScanID ∉ scanID) →
        GetScanVulnerabilities m scanID = ([], none) := by
    intro m scanID h
    have h0 : scanProcessed m scanID = [] := by
      simp only [scanProcessed, List.flatMap_eq_nil_iff, List.filter_eq_nil_iff,
        List.mem_reverse, decide_eq_true_eq]
      exact h
    rw [GetScanVulnerabilities_eq, h0, grouping_nil]
  have htarget : ∀ (m : MemDB) (target : List String),
      (∀ kv ∈ m.Historic, ∀ e, kv.2.getLast? = some e → e.Report.Target ∉ target) →
        GetTargetVulnerabilities m target = ([], none) := by
    intro m target h
    have h0 : targetEligible m target = [] := by
      apply List.eq_nil_iff_forall_not_mem.2
      intro e he
      obtain ⟨kv, hkv, hl, ht⟩ := (mem_targetEligible m target e).1 he
      exact h kv hkv e hl ht
    rw [GetTargetVulnerabilities_eq, h0, grouping_nil]
  refine ⟨hscan m scanID, htarget m target, hscan _ _ ?_, htarget _ _ ?_, hscan _ _ ?_,
    htarget _ _ ?_⟩
  · simp [NewMemDB]
  · simp [NewMemDB]
  · simp
  · simp

theorem queries_empty_result_witness :
    (∀ kv ∈ recencyStore.Historic, ∀ e ∈ kv.2, e.ScanID ∉ ["C"]) ∧
      GetScanVulnerabilities recencyStore ["C"] = ([], none) ∧
      (∀ kv ∈ latestStore.Historic, ∀ e, kv.2.getLast? = some e → e.Report.Target ∉ ["T1"]) ∧
      GetTargetVulnerabilities latestStore ["T1"] = ([], none) :=
  ⟨by decide, (queries_empty_result recencyStore ["C"] ["T1"]).1 (by decide),
    by simp [latestStore, reportOn],
    (queries_empty_result latestStore ["C"] ["T1"]).2.1 (by simp [latestStore, reportOn])⟩

end db

/-! ## C10 -/

namespace db

/-- C10: for every codec with the round trip property, every store `m`, path `p` and file
system, if `m.SaveState(p)` returns a nil error and the file at `p` still has the contents it
had after the call, `LoadState(p)` returns a store and a nil error; the mapping `Historic` of
that store has the same keys as that of `m` and, for every key, the same sequence of entries;
its lock is the zero value of a new lock, whatever the state of the lock of `m`; and when the
decoded mapping also has the iteration order of that of `m`, both queries return on it what
they return on `m`. -/
theorem save_load_round_trip {β : Type} [Inhabited β]
    (gobEncode : GoMap String (List entry) → Except error β)
    (gobDecode : β → GoMap String (List entry) × Option error)
    (hgob : GobRoundTrip gobEncode gobDecode)
    (m : MemDB) (p : String) (fs fs' : FileSystem β)
    (hsave : (SaveState gobEncode m p fs).2 = none)
    (hfile : GoMap.index fs'.files p = GoMap.index (SaveState gobEncode m p fs).1.files p) :
    ∃ m', LoadState gobDecode p fs' = (some m', none) ∧
      (∀ k, GoMap.index m'.Historic k = GoMap.index m.Historic k) ∧
      m'.mux = { writer := false, readers := 0 } ∧
      (m'.Historic = m.Historic →
        (∀ ids, GetScanVulnerabilities m' ids = GetScanVulnerabilities m ids) ∧
        (∀ ts, GetTargetVulnerabilities m' ts = GetTargetVulnerabilities m ts)) := by
  obtain ⟨b, henc, hidx⟩ := SaveState_ok gobEncode m p fs hsave
  obtain ⟨h', hdec, hsame⟩ := hgob m.Historic b henc
  rw [hidx] at hfile
  refine ⟨{ Historic := h', mux := {} }, ?_, hsame, rfl, ?_⟩
  · simp [LoadState, ReadFile, hfile, hdec]
  · intro heq
    simp only at heq
    constructor
    · intro ids
      simp [GetScanVulnerabilities, heq]
    · intro ts
      simp [GetTargetVulnerabilities, heq]

theorem save_load_round_trip_witness :
    GobRoundTrip plainEncode plainDecode ∧
      (SaveState plainEncode lockedStore "state.gob" emptyFS).2 = none ∧
      ∃ m', LoadState plainDecode "state.gob"
            (SaveState plainEncode lockedStore "state.gob" emptyFS).1 = (some m', none) ∧
        (∀ k, GoMap.index m'.Historic k = GoMap.index lockedStore.Historic k) ∧
        m'.mux = { writer := false, readers := 0 } ∧
        (m'.Historic = lockedStore.Historic →
          (∀ ids, GetScanVulnerabilities m' ids = GetScanVulnerabilities lockedStore ids) ∧
          (∀ ts, GetTargetVulnerabilities m' ts = GetTargetVulnerabilities lockedStore ts)) :=
  have hrt : GobRoundTrip plainEncode plainDecode := fun h b hb =>
    ⟨h, by
      simp only [plainEncode, Except.ok.injEq] at hb
      simp [plainDecode, hb], fun _ => rfl⟩
  ⟨hrt, by decide,
    save_load_round_trip plainEncode plainDecode hrt lockedStore "state.gob" emptyFS _
      (by decide) rfl⟩

end db

/-! ## C11 -/

namespace db

/-- C11 (code defect): on a file that is read and whose contents fail to decode, `LoadState`
returns the error together with a non-nil store, the `&m` of line 253, here the empty store
with a new lock; the claim says that no store is returned, as the branch of the read failure
(line 245, `return nil, err`) does.  For every decoder and file system: when the read fails
the result is `nil` and the error, when the read succeeds the result always holds a store,
with whatever error the decoder reports. -/
theorem LoadState_decode_failure_returns_store :
    LoadState checkedDecode "state.gob" corruptFS =
        (some { Historic := [], mux := { writer := false, readers := 0 } },
         some "unexpected EOF") ∧
      LoadState checkedDecode "absent.gob" corruptFS = (none, some "open absent.gob") ∧
      (∀ (β : Type) (gobDecode : β → GoMap String (List entry) × Option error)
          (fs : FileSystem β) (p : String) (b : β),
        ReadFile fs p = Except.ok b →
          LoadState gobDecode p fs =
            (some { Historic := (gobDecode b).1, mux := { writer := false, readers := 0 } },
             (gobDecode b).2)) ∧
      (∀ (β : Type) (gobDecode : β → GoMap String (List entry) × Option error)
          (fs : FileSystem β) (p : String) (err : error),
        ReadFile fs p = Except.error err → LoadState gobDecode p fs = (none, some err)) := by
  refine ⟨by decide, by decide, ?_, ?_⟩
  · intro β gobDecode fs p b h
    simp [LoadState, h]
  · intro β gobDecode fs p err h
    simp [LoadState, h]

end db

/-! ## C13 -/

namespace db

/-- C13: for every store and list of requested scan identifiers, every element of the result
of the query by scan carries a finding of a stored entry with a requested identifier, its
check type is the check type name of the report of such an entry (one that holds a finding of
the same summary and severity rank), and every affected target is the target of such an
entry; and a key none of whose entries has a requested identifier contributes nothing: the
query returns what it returns on the store without that key.  On a store of two keys of which
only the second has an entry of scan "A", the query for "A" returns the finding of that
entry. -/
theorem GetScanVulnerabilities_sound (m : MemDB) (scanID : List String) :
    (∀ v ∈ (GetScanVulnerabilities m scanID).1,
      (∃ kv ∈ m.Historic, ∃ e ∈ kv.2, e.ScanID ∈ scanID ∧
        v.Vulnerability ∈ e.Report.Vulnerabilities) ∧
      (∃ kv ∈ m.Historic, ∃ e ∈ kv.2, e.ScanID ∈ scanID ∧
        v.Checktype = e.Report.ChecktypeName ∧
        ∃ f ∈ e.Report.Vulnerabilities, f.Summary = v.Summary ∧ f.Severity = v.Severity) ∧
      (∀ t ∈ v.AffectedTargets,
        ∃ kv ∈ m.Historic, ∃ e ∈ kv.2, e.ScanID ∈ scanID ∧ e.Report.Target = t)) ∧
      (∀ pre post kv, m.Historic = pre ++ kv :: post → (∀ e ∈ kv.2, e.ScanID ∉ scanID) →
        GetScanVulnerabilities m scanID =
          GetScanVulnerabilities { m with Historic := pre ++ post } scanID) ∧
      GetScanVulnerabilities twoKeyStore ["A"] =
        ([{ Vulnerability := findingX, Checktype := "ct", AffectedTargets := ["T2"] }],
         none) := by
  refine ⟨?_, ?_, by decide⟩
  · rw [GetScanVulnerabilities_eq]
    intro v hv
    obtain ⟨⟨e0, he0, hf0⟩, _, ht, _⟩ := grouping_elem _ v hv
    obtain ⟨p, _, hp1, hp2, hpk, hpc⟩ := grouping_checktype _ v hv
    refine ⟨?_, ?_, ?_⟩
    · obtain ⟨kv, hkv, hek, hid⟩ := (mem_scanProcessed m scanID e0).1 he0
      exact ⟨kv, hkv, e0, hek, hid, hf0⟩
    · obtain ⟨kv, hkv, hek, hid⟩ := (mem_scanProcessed m scanID p.1).1 hp1
      have hk : p.2.Summary = v.Vulnerability.Summary ∧
          p.2.Severity = v.Vulnerability.Severity := by
        simpa [dedupKey] using hpk
      exact ⟨kv, hkv, p.1, hek, hid, hpc, p.2, hp2, hk.1, hk.2⟩
    · intro t htv
      rw [ht] at htv
      obtain ⟨q, hq, rfl⟩ := List.mem_map.1 htv
      have hq1 := (mem_items _ q).1 ((mem_withKey _ _ _).1 hq).1
      obtain ⟨kv, hkv, hek, hid⟩ := (mem_scanProcessed m scanID q.1).1 hq1.1
      exact ⟨kv, hkv, q.1, hek, hid, rfl⟩
  · intro pre post kv hm hkv
    rw [GetScanVulnerabilities_eq, GetScanVulnerabilities_eq,
      scanProcessed_remove m scanID pre post kv hm hkv]

end db

/-! ## C14 -/

namespace db

/-- C14 (code defect, the one of C1): on a key with entries of scan "A" (finding "X"), scan
"B" (finding "Z") and scan "A" (finding "Y"), oldest first, the query for "A" and "B" returns
the findings of all three entries, whereas the single first-match policy of the claim selects
the newest entry alone and gives "Y" only: the `break` of line 130 leaves the loop over the
identifiers, the loop over the entries goes on to the older ones. -/
theorem GetScanVulnerabilities_first_match_fails :
    GetScanVulnerabilities policyStore ["A", "B"] =
        ([{ Vulnerability := findingY, Checktype := "ct", AffectedTargets := ["T"] },
          { Vulnerability := findingZ, Checktype := "ct", AffectedTargets := ["T"] },
          { Vulnerability := findingX, Checktype := "ct", AffectedTargets := ["T"] }], none) ∧
      firstMatch policyStore ["A", "B"] =
        [{ ScanID := "A", Date := "d2", Report := reportOn "T" [findingY] }] ∧
      grouping (firstMatch policyStore ["A", "B"]) =
        [{ Vulnerability := findingY, Checktype := "ct", AffectedTargets := ["T"] }] ∧
      (scanProcessed policyStore ["A", "B"]).length = 3 := by
  decide

end db

/-! ## C15 -/

namespace db

/-- C15: for every store in which the sequence of every key has exactly one entry, and every
list of scan identifiers and list of targets such that every stored entry has a requested
identifier iff it has a requested target, the query by scan and the query by target return
the same result. -/
theorem queries_agree_on_single_entries (m : MemDB) (scanID target : List String)
    (h1 : ∀ kv ∈ m.Historic, kv.2.length = 1)
    (h2 : ∀ kv ∈ m.Historic, ∀ e ∈ kv.2, (e.ScanID ∈ scanID ↔ e.Report.Target ∈ target)) :
    GetScanVulnerabilities m scanID = GetTargetVulnerabilities m target := by
  rw [GetScanVulnerabilities_eq, GetTargetVulnerabilities_eq]
  have h := processed_eq_eligible scanID target m.Historic h1 h2
  simp only [scanProcessed, targetEligible, h]

theorem queries_agree_on_single_entries_witness :
    (∀ kv ∈ twoKeyStore.Historic, kv.2.length = 1) ∧
      (∀ kv ∈ twoKeyStore.Historic, ∀ e ∈ kv.2, (e.ScanID ∈ ["A"] ↔ e.Report.Target ∈ ["T2"])) ∧
      GetScanVulnerabilities twoKeyStore ["A"] = GetTargetVulnerabilities twoKeyStore ["T2"] ∧
      GetTargetVulnerabilities twoKeyStore ["T2"] =
        ([{ Vulnerability := findingX, Checktype := "ct", AffectedTargets := ["T2"] }], none) :=
  ⟨by decide, by decide,
    queries_agree_on_single_entries twoKeyStore ["A"] ["T2"] (by decide) (by decide),
    by decide⟩

end db

/-! ## C16 -/

namespace db

/-- C16: in the accumulation step, when the inner map of the summary of the finding holds an
element at the severity rank of the finding, the step leaves an element there with the same
check type, whether or not the finding replaces the stored one; and in the result of both
queries the check type of an element is the check type name of the report of the first
finding processed with the summary and severity rank of the element.  On two reports of check
types "ct1" and "ct2" with findings of one slot, of scores 1 and 2, the element carries the
finding of "ct2" and the check type "ct1". -/
theorem checktype_fixed_by_seed (m : MemDB) (scanID target : List String) :
    (∀ (e : entry) (vmap : VMap) (vuln : report.Vulnerability)
        (mm : GoMap report.SeverityRank models.Vulnerability) (mv : models.Vulnerability),
      GoMap.index vmap vuln.Summary = some mm → GoMap.index mm vuln.Severity = some mv →
      ∃ mm' mv', GoMap.index (groupVuln e vmap vuln) vuln.Summary = some mm' ∧
        GoMap.index mm' vuln.Severity = some mv' ∧ mv'.Checktype = mv.Checktype ∧
        mv'.Vulnerability = (if mv.Score < vuln.Score then vuln else mv.Vulnerability)) ∧
      (∀ v ∈ (GetTargetVulnerabilities m target).1,
        ∃ p, ((items (targetEligible m target)).filter
            (fun p => decide (p.2.Summary = v.Summary ∧ p.2.Severity = v.Severity))).head? =
              some p ∧
          v.Checktype = p.1.Report.ChecktypeName) ∧
      (∀ v ∈ (GetScanVulnerabilities m scanID).1,
        ∃ p, ((items (scanProcessed m scanID)).filter
            (fun p => decide (p.2.Summary = v.Summary ∧ p.2.Severity = v.Severity))).head? =
              some p ∧
          v.Checktype = p.1.Report.ChecktypeName) ∧
      GetTargetVulnerabilities checktypeStore ["T"] =
        ([{ Vulnerability := findingX2, Checktype := "ct1", AffectedTargets := ["T", "T"] }],
         none) ∧
      GetScanVulnerabilities checktypeStore ["A"] =
        ([{ Vulnerability := findingX2, Checktype := "ct1", AffectedTargets := ["T", "T"] }],
         none) := by
  have hkey : ∀ (es : List entry) (v : models.Vulnerability),
      (items es).filter
          (fun p => decide (p.2.Summary = v.Summary ∧ p.2.Severity = v.Severity)) =
        withKey (dedupKey v.Vulnerability) (items es) := by
    intro es v
    unfold withKey
    apply List.filter_congr
    intro p _
    simp [dedupKey, models.Vulnerability.Summary, models.Vulnerability.Severity]
  refine ⟨?_, ?_, ?_, by decide, by decide⟩
  · intro e vmap vuln mm mv h1 h2
    have hs : slot vmap vuln.Summary vuln.Severity = some mv :=
      (slot_eq_some_iff _ _ _ _).2 ⟨mm, h1, h2⟩
    have h3 := slot_groupVuln e vmap vuln vuln.Summary vuln.Severity
    have hk : dedupKey vuln = (vuln.Summary, vuln.Severity) := rfl
    rw [if_pos hk, hs] at h3
    obtain ⟨mm', hm1, hm2⟩ := (slot_eq_some_iff _ _ _ _).1 h3
    refine ⟨mm', _, hm1, hm2, (merge_some mv e vuln).2.1, ?_⟩
    unfold merge
    by_cases hlt : mv.Score < vuln.Score
    · simp [hlt]
    · simp [hlt]
  · rw [GetTargetVulnerabilities_eq]
    intro v hv
    obtain ⟨p, hp, _, _, _, hc⟩ := grouping_checktype _ v hv
    exact ⟨p, by rw [hkey]; exact hp, hc⟩
  · rw [GetScanVulnerabilities_eq]
    intro v hv
    obtain ⟨p, hp, _, _, _, hc⟩ := grouping_checktype _ v hv
    exact ⟨p, by rw [hkey]; exact hp, hc⟩

end db

/-! ## C17 -/

namespace db

/-- C17: the reports with check type, target and options ("ab", "c", "") and ("a", "bc", "")
differ in check type and in target and have the same primary key, for every digest function;
so on every store, ingesting the first and then the second, in two calls or in one batch,
leaves the sequence of that one key as the previous sequence followed by the entry of the
first and the entry of the second, two entries with different targets. -/
theorem primaryKey_concatenation (md5hex : String → String) (m : MemDB)
    (s1 d1 s2 d2 : String) :
    reportAbC.ChecktypeName ≠ reportABc.ChecktypeName ∧
      reportAbC.Target ≠ reportABc.Target ∧
      reportAbC.ChecktypeName ++ reportAbC.Target ++ reportAbC.Options =
        reportABc.ChecktypeName ++ reportABc.Target ++ reportABc.Options ∧
      primaryKey md5hex reportAbC = primaryKey md5hex reportABc ∧
      GoMap.index
          (SaveScanVulnerabilities md5hex (SaveScanVulnerabilities md5hex m s1 d1 [reportAbC]).1
            s2 d2 [reportABc]).1.Historic (primaryKey md5hex reportAbC) =
        some (sequenceOf m (primaryKey md5hex reportAbC) ++
          [{ ScanID := s1, Date := d1, Report := reportAbC },
           { ScanID := s2, Date := d2, Report := reportABc }]) ∧
      sequenceOf (SaveScanVulnerabilities md5hex m s1 d1 [reportAbC, reportABc]).1
          (primaryKey md5hex reportAbC) =
        sequenceOf m (primaryKey md5hex reportAbC) ++
          [{ ScanID := s1, Date := d1, Report := reportAbC },
           { ScanID := s1, Date := d1, Report := reportABc }] := by
  have hcat : reportAbC.ChecktypeName ++ reportAbC.Target ++ reportAbC.Options =
      reportABc.ChecktypeName ++ reportABc.Target ++ reportABc.Options := by decide
  have hk : primaryKey md5hex reportAbC = primaryKey md5hex reportABc := by
    simp only [primaryKey, hcat]
  refine ⟨by decide, by decide, hcat, hk, ?_, ?_⟩
  · exact index_save_save md5hex m s1 d1 s2 d2 reportAbC reportABc rfl rfl hk
  · rw [sequenceOf_save]
    have hb : batchFor md5hex s1 d1 [reportAbC, reportABc] (primaryKey md5hex reportAbC) =
        [{ ScanID := s1, Date := d1, Report := reportAbC },
         { ScanID := s1, Date := d1, Report := reportABc }] := by
      have h1 : reportAbC.Status = "FINISHED" := rfl
      have h2 : reportABc.Status = "FINISHED" := rfl
      simp [batchFor, List.filter_cons, h1, h2, hk]
    rw [hb]

end db

/-! ## C18 -/

namespace db

/-- C18: for every store and any two lists of requested scan identifiers with the same
elements, the query by scan returns the same result; the entries that it processes are a
sublist of the stored entries, each key newest first, so no stored entry is processed twice,
however often its identifier is requested. -/
theorem GetScanVulnerabilities_set_of_ids (m : MemDB) (ids1 ids2 : List String)
    (h : ∀ s, s ∈ ids1 ↔ s ∈ ids2) :
    GetScanVulnerabilities m ids1 = GetScanVulnerabilities m ids2 ∧
      GetScanVulnerabilities m ids1 = (grouping (scanProcessed m ids1), none) ∧
      (scanProcessed m ids1).Sublist (m.Historic.flatMap (fun kv => kv.2.reverse)) := by
  refine ⟨?_, GetScanVulnerabilities_eq m ids1, ?_⟩
  · rw [GetScanVulnerabilities_eq, GetScanVulnerabilities_eq]
    have hp : scanProcessed m ids1 = scanProcessed m ids2 := by
      simp only [scanProcessed, h]
    rw [hp]
  · unfold scanProcessed
    generalize m.Historic = hist
    induction hist with
    | nil => simp
    | cons kv hist ih =>
      rw [List.flatMap_cons, List.flatMap_cons]
      exact List.Sublist.append (List.filter_sublist _) ih

theorem GetScanVulnerabilities_set_of_ids_witness :
    (∀ s, s ∈ ["A", "A", "B"] ↔ s ∈ ["B", "A"]) ∧
      GetScanVulnerabilities policyStore ["A", "A", "B"] =
        GetScanVulnerabilities policyStore ["B", "A"] ∧
      GetScanVulnerabilities policyStore ["A", "A"] =
        ([{ Vulnerability := findingY, Checktype := "ct", AffectedTargets := ["T"] },
          { Vulnerability := findingX, Checktype := "ct", AffectedTargets := ["T"] }], none) :=
  ⟨by simp [or_comm],
    (GetScanVulnerabilities_set_of_ids policyStore ["A", "A", "B"] ["B", "A"]
      (by simp [or_comm])).1,
    by decide⟩

end db

/-! ## C19 -/

namespace db

/-- C19: in the store reached from `NewMemDB` by any list of calls of
`SaveScanVulnerabilities`, no key occurs twice, every key present has a non-empty sequence, so
that the test `n < 1` of line 163 is false on it, and every entry of the sequence of a key has
status "FINISHED" and that key is the digest of the concatenation of the check type name,
target and options of the report of the entry. -/
theorem reachable_store_invariant (md5hex : String → String)
    (calls : List (String × String × List report.Report)) :
    (GoMap.keys (replay md5hex calls).Historic).Nodup ∧
      (∀ kv ∈ (replay md5hex calls).Historic,
        kv.2 ≠ [] ∧ ¬ kv.2.length < 1 ∧
        ∀ e ∈ kv.2, e.Report.Status = "FINISHED" ∧
          kv.1 = md5hex (e.Report.ChecktypeName ++ e.Report.Target ++ e.Report.Options)) ∧
      (∀ k seq, GoMap.index (replay md5hex calls).Historic k = some seq →
        seq ≠ [] ∧
        ∀ e ∈ seq, e.Report.Status = "FINISHED" ∧
          k = md5hex (e.Report.ChecktypeName ++ e.Report.Target ++ e.Report.Options)) ∧
      (replay plainKey [("A", "d0", [runningReport, reportOn "T" [findingX]]),
          ("B", "d1", [reportOn "T" [findingY]])]).Historic =
        [("ctT", [{ ScanID := "A", Date := "d0", Report := reportOn "T" [findingX] },
                  { ScanID := "B", Date := "d1", Report := reportOn "T" [findingY] }])] := by
  have hinv : (GoMap.keys (replay md5hex calls).Historic).Nodup ∧
      ∀ kv ∈ (replay md5hex calls).Historic, kv.2 ≠ [] ∧
        ∀ e ∈ kv.2, e.Report.Status = "FINISHED" ∧ kv.1 = primaryKey md5hex e.Report := by
    induction calls using List.reverseRecOn with
    | nil => simp [replay, NewMemDB, GoMap.keys]
    | append_singleton calls c ih =>
      rw [replay_snoc]
      exact ⟨saveLoop_nodup_keys _ _ _ _ _ ih.1, saveLoop_invariant _ _ _ _ _ ih.2⟩
  refine ⟨hinv.1, ?_, ?_, by decide⟩
  · intro kv hkv
    obtain ⟨hne, hall⟩ := hinv.2 kv hkv
    refine ⟨hne, ?_, hall⟩
    intro hlt
    exact hne (List.length_eq_zero.1 (by omega))
  · intro k seq hidx
    exact hinv.2 (k, seq) (GoMap.mem_of_index _ _ _ hidx)

end db
